import Mathlib

/-!
Shallow embedding of `src/LinearRegression/LinearRegression.ts` from the
trading-signals repository, together with proofs about it.

Modelling conventions:

* The arbitrary-precision decimal primitive (big.js) is, per the spec, an
  out-of-scope collaborator assumed to supply exact add/subtract/multiply/
  divide/power over decimal values.  Decimal values are modelled as `ℚ` with
  the exact field operations; division by zero and square roots of negative
  numbers raise errors (`Err.divByZero`, `Err.noSquareRoot`), as the
  primitive throws.
* The primitive's square root is modelled by `ratSqrt`: exact whenever the
  true square root is rational, a lower rational approximation otherwise;
  it is nonnegative and vanishes exactly on nonpositive input - the
  properties the program relies on.
* Conversion of a decimal to a native JavaScript float (`toNumber`) is
  modelled by rounding to 53 significant binary digits with ties to even,
  i.e. IEEE-754 double rounding in the normal range (overflow and subnormal
  behaviour are outside the range of interest here).  Native float
  multiplication and addition, which the source applies to
  already-converted outputs, are modelled as the exact rational operation
  followed by `toNumber`, which is IEEE semantics in the normal range.
* Mutation of `this` is modelled by explicit state passing on the structure
  `LinearRegression`; a method that can throw returns the (partially
  mutated) state it leaves behind together with the error, if any.
-/

namespace LinReg

/-- Errors the program can raise: `NotEnoughDataError` from the repository's
own error module, and the errors thrown by the decimal primitive. -/
inductive Err where
  | notEnoughData
  | divByZero
  | noSquareRoot
deriving DecidableEq, Repr

/-- A sample point (the `Point` interface). -/
structure Point where
  x : ℚ
  y : ℚ
deriving DecidableEq, Repr

/-- `class CalculatedPoint`: a point with its products precomputed at
construction time. -/
structure CalculatedPoint where
  x : ℚ
  y : ℚ
  xy : ℚ
  x_squared : ℚ
  y_squared : ℚ
deriving DecidableEq, Repr

/-- The `CalculatedPoint` constructor: `xy`, `x_squared`, `y_squared` are
computed once from the point's coordinates. -/
def CalculatedPoint.ofPoint (p : Point) : CalculatedPoint :=
  ⟨p.x, p.y, p.x * p.y, p.x ^ 2, p.y ^ 2⟩

/-- Round a rational to an integer, ties to even (the IEEE-754 default
rounding used by JavaScript). -/
def roundTiesEven (q : ℚ) : ℤ :=
  if q - ⌊q⌋ < 1 / 2 then ⌊q⌋
  else if 1 / 2 < q - ⌊q⌋ then ⌊q⌋ + 1
  else if ⌊q⌋ % 2 = 0 then ⌊q⌋ else ⌊q⌋ + 1

/-- Positive branch of double rounding: round `q > 0` to 53 significant
binary digits; on `q ≤ 0` it returns `0`. -/
def flPos (q : ℚ) : ℚ :=
  if q ≤ 0 then 0
  else
    (roundTiesEven (q * 2 ^ (52 - Int.log 2 q)) : ℚ) * 2 ^ (Int.log 2 q - 52)

/-- `Big#toNumber`: conversion of an exact decimal to a native 64-bit float
(normal range). -/
def toNumber (q : ℚ) : ℚ :=
  if q < 0 then -flPos (-q) else flPos q

/-- Value part of the decimal square root: exact on rationals with rational
square root, a lower approximation otherwise; nonnegative, and zero exactly
on nonpositive input.  `Big#sqrt` throws on negative input; at the use
sites inside `calculate()` this is modelled by an explicit sign test
raising `Err.noSquareRoot` before `ratSqrt` is applied. -/
def ratSqrt (q : ℚ) : ℚ :=
  (Nat.sqrt (q.num.toNat * q.den) : ℚ) / (q.den : ℚ)

/-- The mutable state of `class LinearRegression`. -/
structure LinearRegression where
  points : List CalculatedPoint
  a : Option ℚ
  b : Option ℚ
  residual : Option ℚ
  pearsons_r : Option ℚ
  sum_x : ℚ
  sum_y : ℚ
  sum_xy : ℚ
  sum_x_squared : ℚ
  sum_y_squared : ℚ
deriving DecidableEq, Repr

/-- The field initializers: a fresh instance. -/
def fresh : LinearRegression :=
  ⟨[], none, none, none, none, 0, 0, 0, 0, 0⟩

/-- `clearCalculated()`. -/
def clearCalculated (s : LinearRegression) : LinearRegression :=
  { s with a := none, b := none, residual := none, pearsons_r := none }

/-- The per-point part of the `push` loop body: append the calculated point
and add its fields into the five running sums. -/
def addPoint (s : LinearRegression) (c : CalculatedPoint) : LinearRegression :=
  { s with
    points := s.points ++ [c]
    sum_x := s.sum_x + c.x
    sum_y := s.sum_y + c.y
    sum_xy := s.sum_xy + c.xy
    sum_x_squared := s.sum_x_squared + c.x_squared
    sum_y_squared := s.sum_y_squared + c.y_squared }

/-- One iteration of the `push` loop; the boolean is `calculated_cleared`,
so the calculated fields are cleared only on the first iteration. -/
def pushStep (sc : LinearRegression × Bool) (p : Point) : LinearRegression × Bool :=
  let s := addPoint sc.1 (CalculatedPoint.ofPoint p)
  if sc.2 then (s, true) else (clearCalculated s, true)

/-- `push(points)`; a single point is passed as the one-element list. -/
def push (s : LinearRegression) (ps : List Point) : LinearRegression :=
  (ps.foldl pushStep (s, false)).1

/-- `shift()`: remove the oldest point and subtract its fields from the
sums; a no-op (including no invalidation) when no points are stored. -/
def shift (s : LinearRegression) : LinearRegression :=
  match s.points with
  | [] => s
  | p :: rest =>
      clearCalculated
        { s with
          points := rest
          sum_x := s.sum_x - p.x
          sum_y := s.sum_y - p.y
          sum_xy := s.sum_xy - p.xy
          sum_x_squared := s.sum_x_squared - p.x_squared
          sum_y_squared := s.sum_y_squared - p.y_squared }

/-- The body of the residual/Pearson accumulation loop in `calculate()`.
`y_hat` is obtained through `this.getValue`, which at this program point has
both coefficients assigned and therefore returns `b.mul(x).plus(a)
.toNumber()`: the fitted value converted to a native float. -/
def residAccum (a b mean_x mean_y : ℚ) (acc : ℚ × ℚ × ℚ × ℚ)
    (p : CalculatedPoint) : ℚ × ℚ × ℚ × ℚ :=
  let y_hat := toNumber (b * p.x + a)
  (acc.1 + (p.y - y_hat) ^ 2,
   acc.2.1 + (p.x - mean_x) * (p.y - mean_y),
   acc.2.2.1 + (p.x - mean_x) ^ 2,
   acc.2.2.2 + (p.y - mean_y) ^ 2)

/-- `new Big(this.points.length)`. -/
def nQ (s : LinearRegression) : ℚ := (s.points.length : ℚ)

/-- The shared denominator of `calculate()`: `n·Σx² − (Σx)²`. -/
def denomQ (s : LinearRegression) : ℚ :=
  nQ s * s.sum_x_squared - s.sum_x ^ 2

/-- The intercept `calculate()` solves for. -/
def aVal (s : LinearRegression) : ℚ :=
  (s.sum_y * s.sum_x_squared - s.sum_x * s.sum_xy) / denomQ s

/-- The slope `calculate()` solves for. -/
def bVal (s : LinearRegression) : ℚ :=
  (nQ s * s.sum_xy - s.sum_x * s.sum_y) / denomQ s

/-- `mean_x` in `calculate()`. -/
def meanX (s : LinearRegression) : ℚ := s.sum_x / nQ s

/-- `mean_y` in `calculate()`. -/
def meanY (s : LinearRegression) : ℚ := s.sum_y / nQ s

/-- The four sums accumulated by the loop in `calculate()`, as a function
of the state the loop starts from. -/
def accOf (s : LinearRegression) : ℚ × ℚ × ℚ × ℚ :=
  s.points.foldl (residAccum (aVal s) (bVal s) (meanX s) (meanY s)) (0, 0, 0, 0)

/-- The residual value a (re)calculation assigns. -/
def residVal (s : LinearRegression) : ℚ :=
  toNumber (ratSqrt ((accOf s).1 / (nQ s - 2)))

/-- The Pearson denominator `sqrt(Σ(x−x̄)² · Σ(y−ȳ)²)`. -/
def prDenom (s : LinearRegression) : ℚ :=
  ratSqrt ((accOf s).2.2.1 * (accOf s).2.2.2)

/-- The Pearson value a (re)calculation assigns. -/
def prVal (s : LinearRegression) : ℚ :=
  toNumber ((accOf s).2.1 / prDenom s)

/-- The state after the two coefficient assignments in `calculate()`. -/
def withAB (s : LinearRegression) : LinearRegression :=
  { s with a := some (aVal s), b := some (bVal s) }

/-- The state after the residual assignment in `calculate()`. -/
def withABR (s : LinearRegression) : LinearRegression :=
  { withAB s with residual := some (residVal s) }

/-- The state after a fully successful `calculate()`. -/
def calcFull (s : LinearRegression) : LinearRegression :=
  { withABR s with pearsons_r := some (prVal s) }

/-- `calculate()`.  Returns the state as left behind (assignments made
before a throw persist, nothing is ever un-assigned by a throw) together
with the error thrown, if any.  The branches appear in the program order of
the throwing operations in the source: the guard on fewer than 2 points;
the division by `denom` (throws before `a` is assigned); the division by
`points.length - 2` (throws after `a` and `b` are assigned, before
`residual` is); the residual square root (its argument is provably
nonnegative); the Pearson square root (likewise); the division by the
Pearson denominator (throws after `residual` is assigned, before
`pearsons_r` is).  The local variables of the source are the named
definitions above: `denom` is `denomQ`, `a` is `aVal`, `b` is `bVal`,
`mean_x`/`mean_y` are `meanX`/`meanY`, and the four loop accumulators are
`accOf`; the states after each batch of assignments are `withAB`,
`withABR` and `calcFull`. -/
def calculate (s : LinearRegression) : LinearRegression × Option Err :=
  if s.points.length < 2 then (s, some .notEnoughData)
  else if denomQ s = 0 then (s, some .divByZero)
  else if s.points.length = 2 then (withAB s, some .divByZero)
  else if (accOf s).1 / (nQ s - 2) < 0 then (withAB s, some .noSquareRoot)
  else if (accOf s).2.2.1 * (accOf s).2.2.2 < 0 then (withABR s, some .noSquareRoot)
  else if prDenom s = 0 then (withABR s, some .divByZero)
  else (calcFull s, none)

/-- JavaScript truthiness of a possibly-unset number field: `undefined` and
`0` are falsy (the model has no NaN). -/
def numTruthy : Option ℚ → Bool
  | none => false
  | some q => q != 0

/-- `isCalculated()`: the source tests all four fields for truthiness; `a`
and `b` are objects (truthy exactly when present), `residual` and
`pearsons_r` are native numbers (falsy when `0`). -/
def isCalculated (s : LinearRegression) : Bool :=
  s.a.isSome && s.b.isSome && numTruthy s.residual && numTruthy s.pearsons_r

/-- `getValue(time)`; the non-null assertions on `a`, `b` are modelled with
a default that is never read on the paths the program takes. -/
def getValue (s : LinearRegression) (time : ℚ) :
    LinearRegression × Except Err ℚ :=
  if s.a.isSome && s.b.isSome then
    (s, .ok (toNumber (s.b.getD 0 * time + s.a.getD 0)))
  else
    match calculate s with
    | (s1, some e) => (s1, .error e)
    | (s1, none) => (s1, .ok (toNumber (s1.b.getD 0 * time + s1.a.getD 0)))

/-- `getResidual(std_dev_val = 1)`; the final multiplication is native
float arithmetic on the stored number. -/
def getResidual (s : LinearRegression) (std_dev_val : ℚ) :
    LinearRegression × Except Err ℚ :=
  if isCalculated s then
    (s, .ok (toNumber (s.residual.getD 0 * std_dev_val)))
  else
    match calculate s with
    | (s1, some e) => (s1, .error e)
    | (s1, none) => (s1, .ok (toNumber (s1.residual.getD 0 * std_dev_val)))

/-- `getStandardDeviation(std_dev_val = 1)`: alias of `getResidual`. -/
def getStandardDeviation (s : LinearRegression) (std_dev_val : ℚ) :
    LinearRegression × Except Err ℚ :=
  getResidual s std_dev_val

/-- `getPearsonsR()`. -/
def getPearsonsR (s : LinearRegression) : LinearRegression × Except Err ℚ :=
  if isCalculated s then (s, .ok (s.pearsons_r.getD 0))
  else
    match calculate s with
    | (s1, some e) => (s1, .error e)
    | (s1, none) => (s1, .ok (s1.pearsons_r.getD 0))

/-- `getStandardDeviationValue(time, std_deviation)`; the final `+` is
native float addition. -/
def getStandardDeviationValue (s : LinearRegression) (time std_deviation : ℚ) :
    LinearRegression × Except Err ℚ :=
  match getValue s time with
  | (s1, .error e) => (s1, .error e)
  | (s1, .ok v) =>
      match getStandardDeviation s1 std_deviation with
      | (s2, .error e) => (s2, .error e)
      | (s2, .ok r) => (s2, .ok (toNumber (v + r)))

/-- `getValues(time, std_dev_val = 2)`; `std_dev_val * -1` is native float
multiplication; the three elements are evaluated left to right, each
threading the state left by the previous one. -/
def getValues (s : LinearRegression) (time std_dev_val : ℚ) :
    LinearRegression × Except Err (List ℚ) :=
  match getStandardDeviationValue s time (toNumber (std_dev_val * (-1))) with
  | (s1, .error e) => (s1, .error e)
  | (s1, .ok lo) =>
      match getValue s1 time with
      | (s2, .error e) => (s2, .error e)
      | (s2, .ok mid) =>
          match getStandardDeviationValue s2 time std_dev_val with
          | (s3, .error e) => (s3, .error e)
          | (s3, .ok hi) => (s3, .ok [lo, mid, hi])

/-- `count()`. -/
def count (s : LinearRegression) : ℕ := s.points.length

/-- `constructor(points?)`: constructing from a batch is `push` on a fresh
instance; an absent argument is the empty batch. -/
def construct (ps : List Point) : LinearRegression :=
  push fresh ps

/-- Σx over a stored point list. -/
def sumXpts (l : List CalculatedPoint) : ℚ := (l.map fun p => p.x).sum

/-- Σy over a stored point list. -/
def sumYpts (l : List CalculatedPoint) : ℚ := (l.map fun p => p.y).sum

/-- Σxy over a stored point list. -/
def sumXYpts (l : List CalculatedPoint) : ℚ := (l.map fun p => p.x * p.y).sum

/-- Σx² over a stored point list. -/
def sumX2pts (l : List CalculatedPoint) : ℚ := (l.map fun p => p.x ^ 2).sum

/-- Σy² over a stored point list. -/
def sumY2pts (l : List CalculatedPoint) : ℚ := (l.map fun p => p.y ^ 2).sum

/-- Σ(y − ŷ)² as actually accumulated by the loop (with the float-converted
fitted value). -/
def sumResSq (a b : ℚ) (l : List CalculatedPoint) : ℚ :=
  (l.map fun p => (p.y - toNumber (b * p.x + a)) ^ 2).sum

/-- Σ(y − ŷ)² with the fitted value kept exact (the spec's description). -/
def sumResSqSpec (a b : ℚ) (l : List CalculatedPoint) : ℚ :=
  (l.map fun p => (p.y - (b * p.x + a)) ^ 2).sum

/-- Σ(x − x̄)(y − ȳ). -/
def sumCross (mx my : ℚ) (l : List CalculatedPoint) : ℚ :=
  (l.map fun p => (p.x - mx) * (p.y - my)).sum

/-- Σ(x − x̄)². -/
def sumDx2 (mx : ℚ) (l : List CalculatedPoint) : ℚ :=
  (l.map fun p => (p.x - mx) ^ 2).sum

/-- Σ(y − ȳ)². -/
def sumDy2 (my : ℚ) (l : List CalculatedPoint) : ℚ :=
  (l.map fun p => (p.y - my) ^ 2).sum

/-- All four lazily calculated fields unset. -/
def FieldsNone (s : LinearRegression) : Prop :=
  s.a = none ∧ s.b = none ∧ s.residual = none ∧ s.pearsons_r = none

/-- Two states with the same stored points and the same running sums. -/
def SameCore (t s : LinearRegression) : Prop :=
  t.points = s.points ∧ t.sum_x = s.sum_x ∧ t.sum_y = s.sum_y ∧
  t.sum_xy = s.sum_xy ∧ t.sum_x_squared = s.sum_x_squared ∧
  t.sum_y_squared = s.sum_y_squared

/-- The running-sums invariant: each accumulator equals the corresponding
sum over the stored points, and every stored point's precomputed fields are
consistent with its coordinates. -/
def Inv (s : LinearRegression) : Prop :=
  s.sum_x = sumXpts s.points ∧
  s.sum_y = sumYpts s.points ∧
  s.sum_xy = sumXYpts s.points ∧
  s.sum_x_squared = sumX2pts s.points ∧
  s.sum_y_squared = sumY2pts s.points ∧
  ∀ p ∈ s.points, p.xy = p.x * p.y ∧ p.x_squared = p.x ^ 2 ∧ p.y_squared = p.y ^ 2

/-- Coherence of the lazily calculated fields: a field is either unset or
holds exactly the value a (re)calculation from the current points and sums
produces, under the side conditions on which `calculate()` can have set
it. -/
def GoodFields (s : LinearRegression) : Prop :=
  (s.a.isSome ↔ s.b.isSome) ∧
  (s.residual.isSome → s.a.isSome = true) ∧
  (s.pearsons_r.isSome → s.residual.isSome = true) ∧
  (s.a.isSome →
    2 ≤ s.points.length ∧ denomQ s ≠ 0 ∧
      s.a = some (aVal s) ∧ s.b = some (bVal s)) ∧
  (s.residual.isSome → 2 < s.points.length ∧ s.residual = some (residVal s)) ∧
  (s.pearsons_r.isSome → prDenom s ≠ 0 ∧ s.pearsons_r = some (prVal s))

/-- All stored x-values identical. -/
def allEqX (l : List CalculatedPoint) : Prop :=
  ∀ p ∈ l, ∀ q ∈ l, p.x = q.x

/-- All stored y-values identical. -/
def allEqY (l : List CalculatedPoint) : Prop :=
  ∀ p ∈ l, ∀ q ∈ l, p.y = q.y

/-- A mutation of the point set: one `push` call (with its batch) or one
`shift` call. -/
inductive Op where
  | pushOp : List Point → Op
  | shiftOp : Op

/-- Apply one mutation. -/
def applyOp (s : LinearRegression) : Op → LinearRegression
  | .pushOp ps => push s ps
  | .shiftOp => shift s

/-- Run a sequence of push/shift operations on a fresh instance. -/
def runOps (ops : List Op) : LinearRegression :=
  ops.foldl applyOp fresh

/-- States an instance can actually be in: fresh, or reached by `push`,
`shift`, or a `calculate` call (also the one an accessor triggers),
whether it succeeds or throws. -/
inductive Reachable : LinearRegression → Prop where
  | fresh : Reachable fresh
  | push (s : LinearRegression) (ps : List Point) :
      Reachable s → Reachable (push s ps)
  | shift (s : LinearRegression) : Reachable s → Reachable (shift s)
  | calcStep (s : LinearRegression) : Reachable s → Reachable (calculate s).1

/-- Modelled from the spec ("Numeric precision": all internal accumulation
and coefficient solving must use the exact decimal primitive; only final
output values convert to native floating-point): the accumulation loop with
the fitted value `y_hat` kept in the decimal domain instead of passing
through the float conversion inside `getValue()`.  Used only to compare
against `residAccum`. -/
def residAccumSpec (a b mean_x mean_y : ℚ) (acc : ℚ × ℚ × ℚ × ℚ)
    (p : CalculatedPoint) : ℚ × ℚ × ℚ × ℚ :=
  let y_hat := b * p.x + a
  (acc.1 + (p.y - y_hat) ^ 2,
   acc.2.1 + (p.x - mean_x) * (p.y - mean_y),
   acc.2.2.1 + (p.x - mean_x) ^ 2,
   acc.2.2.2 + (p.y - mean_y) ^ 2)

/-- Modelled from the spec: `calculate()` as the spec describes it, with the
whole accumulation pass performed on exact decimals (`residAccumSpec`) and
conversion to a native float only on the final stored outputs. -/
def calculateSpecPrecision (s : LinearRegression) : LinearRegression × Option Err :=
  if s.points.length < 2 then (s, some .notEnoughData)
  else
    let n : ℚ := (s.points.length : ℚ)
    let denom : ℚ := n * s.sum_x_squared - s.sum_x ^ 2
    if denom = 0 then (s, some .divByZero)
    else
      let a := (s.sum_y * s.sum_x_squared - s.sum_x * s.sum_xy) / denom
      let b := (n * s.sum_xy - s.sum_x * s.sum_y) / denom
      let s1 := { s with a := some a, b := some b }
      let mean_x := s.sum_x / n
      let mean_y := s.sum_y / n
      let acc := s1.points.foldl (residAccumSpec a b mean_x mean_y) (0, 0, 0, 0)
      if s1.points.length = 2 then (s1, some .divByZero)
      else if acc.1 / ((s1.points.length : ℚ) - 2) < 0 then (s1, some .noSquareRoot)
      else
        let s2 := { s1 with
          residual := some (toNumber (ratSqrt (acc.1 / ((s1.points.length : ℚ) - 2)))) }
        if acc.2.2.1 * acc.2.2.2 < 0 then (s2, some .noSquareRoot)
        else
          let pd := ratSqrt (acc.2.2.1 * acc.2.2.2)
          if pd = 0 then (s2, some .divByZero)
          else ({ s2 with pearsons_r := some (toNumber (acc.2.1 / pd)) }, none)

/-- A concrete fully-cached state for exercising the cached accessors. -/
def cachedState : LinearRegression :=
  ⟨[], some 1, some 2, some 3, some 4, 0, 0, 0, 0, 0⟩

/-- A dyadic rational: an integer divided by a power of two.  Every value
produced by the float-conversion model is dyadic; `1/6` is not, which
separates the exact accumulation the spec prescribes from the
float-contaminated accumulation the code performs. -/
def IsDyadic (q : ℚ) : Prop := ∃ m : ℤ, ∃ n : ℕ, q = (m : ℚ) / 2 ^ n

/-! ### Properties of the float-conversion model -/

theorem roundTiesEven_intCast (n : ℤ) : roundTiesEven (n : ℚ) = n := by
  norm_num [roundTiesEven]

theorem le_roundTiesEven (q : ℚ) : ⌊q⌋ ≤ roundTiesEven q := by
  unfold roundTiesEven; split_ifs <;> omega

theorem roundTiesEven_le (q : ℚ) : roundTiesEven q ≤ ⌊q⌋ + 1 := by
  unfold roundTiesEven; split_ifs <;> omega

theorem roundTiesEven_mono {x y : ℚ} (h : x ≤ y) :
    roundTiesEven x ≤ roundTiesEven y := by
  rcases lt_or_le ⌊x⌋ ⌊y⌋ with hlt | hle
  · calc roundTiesEven x ≤ ⌊x⌋ + 1 := roundTiesEven_le x
      _ ≤ ⌊y⌋ := by omega
      _ ≤ roundTiesEven y := le_roundTiesEven y
  · have heq : ⌊x⌋ = ⌊y⌋ := le_antisymm (Int.floor_le_floor h) hle
    have hfr : x - (⌊y⌋ : ℚ) ≤ y - (⌊y⌋ : ℚ) := by linarith
    unfold roundTiesEven
    rw [heq]
    split_ifs <;> first | omega | linarith

theorem two_zpow_pos (z : ℤ) : (0 : ℚ) < 2 ^ z := zpow_pos (by norm_num) z

theorem two_zpow_mul (a b : ℤ) : (2 : ℚ) ^ a * (2 : ℚ) ^ b = 2 ^ (a + b) :=
  (zpow_add₀ (by norm_num) a b).symm

theorem q_pow52 : (2 : ℚ) ^ (52 : ℤ) = ((2 ^ 52 : ℤ) : ℚ) := by norm_num

theorem q_pow53 : (2 : ℚ) ^ (53 : ℤ) = ((2 ^ 53 : ℤ) : ℚ) := by norm_num

theorem log2_self_le {q : ℚ} (hq : 0 < q) : (2 : ℚ) ^ Int.log 2 q ≤ q := by
  have := Int.zpow_log_le_self Nat.one_lt_two hq
  simpa using this

theorem lt_log2_succ (q : ℚ) : q < (2 : ℚ) ^ (Int.log 2 q + 1) := by
  have := Int.lt_zpow_succ_log_self Nat.one_lt_two q
  simpa using this

theorem scaled_lb {q : ℚ} (hq : 0 < q) :
    (2 : ℚ) ^ (52 : ℤ) ≤ q * 2 ^ (52 - Int.log 2 q) := by
  have h2 : (0 : ℚ) < 2 ^ (52 - Int.log 2 q) := two_zpow_pos _
  have h := mul_le_mul_of_nonneg_right (log2_self_le hq) h2.le
  rw [two_zpow_mul] at h
  have he : Int.log 2 q + (52 - Int.log 2 q) = 52 := by omega
  rwa [he] at h

theorem scaled_ub (q : ℚ) :
    q * 2 ^ (52 - Int.log 2 q) < (2 : ℚ) ^ (53 : ℤ) := by
  have h2 : (0 : ℚ) < 2 ^ (52 - Int.log 2 q) := two_zpow_pos _
  have h := mul_lt_mul_of_pos_right (lt_log2_succ q) h2
  rw [two_zpow_mul] at h
  have he : Int.log 2 q + 1 + (52 - Int.log 2 q) = 53 := by omega
  rwa [he] at h

theorem roundTiesEven_scaled_lb {q : ℚ} (hq : 0 < q) :
    (2 ^ 52 : ℤ) ≤ roundTiesEven (q * 2 ^ (52 - Int.log 2 q)) := by
  have h1 : (2 ^ 52 : ℤ) ≤ ⌊q * 2 ^ (52 - Int.log 2 q)⌋ := by
    rw [Int.le_floor]
    have := scaled_lb hq
    rwa [q_pow52] at this
  exact le_trans h1 (le_roundTiesEven _)

theorem roundTiesEven_scaled_ub (q : ℚ) :
    roundTiesEven (q * 2 ^ (52 - Int.log 2 q)) ≤ (2 ^ 53 : ℤ) := by
  have h1 : ⌊q * 2 ^ (52 - Int.log 2 q)⌋ < (2 ^ 53 : ℤ) := by
    rw [Int.floor_lt]
    have := scaled_ub q
    rwa [q_pow53] at this
  have := roundTiesEven_le (q * 2 ^ (52 - Int.log 2 q))
  omega

theorem flPos_of_nonpos {q : ℚ} (h : q ≤ 0) : flPos q = 0 := by
  simp [flPos, h]

theorem flPos_of_pos {q : ℚ} (h : 0 < q) :
    flPos q = (roundTiesEven (q * 2 ^ (52 - Int.log 2 q)) : ℚ) *
      2 ^ (Int.log 2 q - 52) := by
  rw [flPos, if_neg (not_le.mpr h)]

theorem flPos_nonneg (q : ℚ) : 0 ≤ flPos q := by
  rcases le_or_lt q 0 with h | h
  · rw [flPos_of_nonpos h]
  · rw [flPos_of_pos h]
    have h1 : (0 : ℤ) ≤ roundTiesEven (q * 2 ^ (52 - Int.log 2 q)) :=
      le_trans (by positivity) (roundTiesEven_scaled_lb h)
    have h2 : (0 : ℚ) ≤ (roundTiesEven (q * 2 ^ (52 - Int.log 2 q)) : ℚ) := by
      exact_mod_cast h1
    exact mul_nonneg h2 (two_zpow_pos _).le

theorem flPos_ge_lower {q : ℚ} (hq : 0 < q) :
    (2 : ℚ) ^ Int.log 2 q ≤ flPos q := by
  rw [flPos_of_pos hq]
  have h1 : ((2 ^ 52 : ℤ) : ℚ) ≤ (roundTiesEven (q * 2 ^ (52 - Int.log 2 q)) : ℚ) := by
    exact_mod_cast roundTiesEven_scaled_lb hq
  have h2 := mul_le_mul_of_nonneg_right h1 (two_zpow_pos (Int.log 2 q - 52)).le
  rw [← q_pow52, two_zpow_mul] at h2
  have he : (52 : ℤ) + (Int.log 2 q - 52) = Int.log 2 q := by omega
  rwa [he] at h2

theorem flPos_le_upper {q : ℚ} (hq : 0 < q) :
    flPos q ≤ (2 : ℚ) ^ (Int.log 2 q + 1) := by
  rw [flPos_of_pos hq]
  have h1 : (roundTiesEven (q * 2 ^ (52 - Int.log 2 q)) : ℚ) ≤ ((2 ^ 53 : ℤ) : ℚ) := by
    exact_mod_cast roundTiesEven_scaled_ub q
  have h2 := mul_le_mul_of_nonneg_right h1 (two_zpow_pos (Int.log 2 q - 52)).le
  rw [← q_pow53, two_zpow_mul] at h2
  have he : (53 : ℤ) + (Int.log 2 q - 52) = Int.log 2 q + 1 := by omega
  rwa [he] at h2

theorem flPos_mono {x y : ℚ} (hx : 0 < x) (hxy : x ≤ y) : flPos x ≤ flPos y := by
  have hy : 0 < y := lt_of_lt_of_le hx hxy
  have hlog : Int.log 2 x ≤ Int.log 2 y := Int.log_mono_right hx hxy
  rcases eq_or_lt_of_le hlog with heq | hlt
  · rw [flPos_of_pos hx, flPos_of_pos hy, ← heq]
    have hsc : x * 2 ^ (52 - Int.log 2 x) ≤ y * 2 ^ (52 - Int.log 2 x) :=
      mul_le_mul_of_nonneg_right hxy (two_zpow_pos _).le
    have hr : ((roundTiesEven (x * 2 ^ (52 - Int.log 2 x)) : ℤ) : ℚ) ≤
        ((roundTiesEven (y * 2 ^ (52 - Int.log 2 x)) : ℤ) : ℚ) := by
      exact_mod_cast roundTiesEven_mono hsc
    exact mul_le_mul_of_nonneg_right hr (two_zpow_pos _).le
  · calc flPos x ≤ 2 ^ (Int.log 2 x + 1) := flPos_le_upper hx
      _ ≤ 2 ^ Int.log 2 y := zpow_le_zpow_right₀ (by norm_num) (by omega)
      _ ≤ flPos y := flPos_ge_lower hy

theorem log2_eq_of_bounds {v : ℚ} {e : ℤ} (hv : 0 < v)
    (h1 : (2 : ℚ) ^ e ≤ v) (h2 : v < (2 : ℚ) ^ (e + 1)) : Int.log 2 v = e := by
  have hle : e ≤ Int.log 2 v := by
    rw [← Int.zpow_le_iff_le_log Nat.one_lt_two hv]
    simpa using h1
  have hlt : Int.log 2 v < e + 1 := by
    rw [← Int.lt_zpow_iff_log_lt Nat.one_lt_two hv]
    simpa using h2
  omega

theorem flPos_idem (q : ℚ) : flPos (flPos q) = flPos q := by
  rcases le_or_lt q 0 with h | h
  · rw [flPos_of_nonpos h, flPos_of_nonpos le_rfl]
  · have hm_lb := roundTiesEven_scaled_lb h
    have hm_ub := roundTiesEven_scaled_ub q
    rw [flPos_of_pos h]
    rcases eq_or_lt_of_le hm_ub with hm53 | hmlt
    · -- the mantissa rounded up to 2^53: the value is the next power of two
      rw [hm53]
      have hv : ((2 ^ 53 : ℤ) : ℚ) * 2 ^ (Int.log 2 q - 52) =
          (2 : ℚ) ^ (Int.log 2 q + 1) := by
        rw [← q_pow53, two_zpow_mul]
        congr 1
        omega
      rw [hv]
      have hpos : (0 : ℚ) < (2 : ℚ) ^ (Int.log 2 q + 1) := two_zpow_pos _
      rw [flPos_of_pos hpos]
      have hlog : Int.log 2 ((2 : ℚ) ^ (Int.log 2 q + 1)) = Int.log 2 q + 1 :=
        log2_eq_of_bounds hpos le_rfl
          (zpow_lt_zpow_right₀ (by norm_num) (by omega))
      rw [hlog, two_zpow_mul]
      have he : Int.log 2 q + 1 + (52 - (Int.log 2 q + 1)) = 52 := by omega
      rw [he, q_pow52, roundTiesEven_intCast, ← q_pow52, two_zpow_mul]
      congr 1
      omega
    · -- the rounded mantissa stays in the binade of q
      set m : ℤ := roundTiesEven (q * 2 ^ (52 - Int.log 2 q)) with hmdef
      set e : ℤ := Int.log 2 q with hedef
      have hvpos : (0 : ℚ) < (m : ℚ) * 2 ^ (e - 52) := by
        have : (0 : ℚ) < (m : ℚ) := by
          have : (0 : ℤ) < m := lt_of_lt_of_le (by positivity) hm_lb
          exact_mod_cast this
        exact mul_pos this (two_zpow_pos _)
      have hlb : (2 : ℚ) ^ e ≤ (m : ℚ) * 2 ^ (e - 52) := by
        have h1 : ((2 ^ 52 : ℤ) : ℚ) ≤ (m : ℚ) := by exact_mod_cast hm_lb
        have h2 := mul_le_mul_of_nonneg_right h1 (two_zpow_pos (e - 52)).le
        rw [← q_pow52, two_zpow_mul] at h2
        have he : (52 : ℤ) + (e - 52) = e := by omega
        rwa [he] at h2
      have hub : (m : ℚ) * 2 ^ (e - 52) < (2 : ℚ) ^ (e + 1) := by
        have h1 : (m : ℚ) < ((2 ^ 53 : ℤ) : ℚ) := by exact_mod_cast hmlt
        have h2 := mul_lt_mul_of_pos_right h1 (two_zpow_pos (e - 52))
        rw [← q_pow53, two_zpow_mul] at h2
        have he : (53 : ℤ) + (e - 52) = e + 1 := by omega
        rwa [he] at h2
      have hlog : Int.log 2 ((m : ℚ) * 2 ^ (e - 52)) = e :=
        log2_eq_of_bounds hvpos hlb hub
      rw [flPos_of_pos hvpos, hlog]
      have hms : (m : ℚ) * 2 ^ (e - 52) * 2 ^ (52 - e) = (m : ℚ) := by
        rw [mul_assoc, two_zpow_mul]
        have he : e - 52 + (52 - e) = 0 := by omega
        rw [he, zpow_zero, mul_one]
      rw [hms, roundTiesEven_intCast]

theorem toNumber_zero : toNumber 0 = 0 := by
  simp [toNumber, flPos_of_nonpos le_rfl]

theorem toNumber_of_nonneg {q : ℚ} (h : 0 ≤ q) : toNumber q = flPos q := by
  rw [toNumber, if_neg (not_lt.mpr h)]

theorem toNumber_nonneg {q : ℚ} (h : 0 ≤ q) : 0 ≤ toNumber q := by
  rw [toNumber_of_nonneg h]; exact flPos_nonneg q

theorem toNumber_neg (q : ℚ) : toNumber (-q) = -toNumber q := by
  rcases lt_trichotomy q 0 with h | h | h
  · have h1 : ¬(-q < 0) := by linarith
    simp only [toNumber, if_pos h, if_neg h1, neg_neg]
  · subst h
    simp [toNumber, flPos_of_nonpos le_rfl]
  · have h1 : -q < 0 := by linarith
    simp only [toNumber, if_pos h1, if_neg (not_lt.mpr h.le), neg_neg]

theorem toNumber_nonpos {q : ℚ} (h : q ≤ 0) : toNumber q ≤ 0 := by
  rcases lt_or_eq_of_le h with h1 | h1
  · rw [toNumber, if_pos h1]
    have := flPos_nonneg (-q)
    linarith
  · subst h1
    rw [toNumber_zero]

theorem toNumber_mono {x y : ℚ} (h : x ≤ y) : toNumber x ≤ toNumber y := by
  rcases lt_or_le 0 x with hx | hx
  · rw [toNumber_of_nonneg hx.le, toNumber_of_nonneg (hx.trans_le h).le]
    exact flPos_mono hx h
  · rcases lt_or_le y 0 with hy | hy
    · have hx' : x < 0 := lt_of_le_of_lt h hy
      simp only [toNumber, if_pos hx', if_pos hy]
      have h1 : flPos (-y) ≤ flPos (-x) := flPos_mono (by linarith) (by linarith)
      linarith
    · have h1 : toNumber x ≤ 0 := toNumber_nonpos hx
      have h2 : 0 ≤ toNumber y := toNumber_nonneg hy
      linarith

theorem toNumber_idem (q : ℚ) : toNumber (toNumber q) = toNumber q := by
  rcases le_or_lt 0 q with h | h
  · rw [toNumber_of_nonneg h, toNumber_of_nonneg (flPos_nonneg q), flPos_idem]
  · have hq' : toNumber q = -flPos (-q) := by rw [toNumber, if_pos h]
    rw [hq', toNumber_neg, toNumber_of_nonneg (flPos_nonneg (-q)), flPos_idem]

/-! ### Properties of the square-root model -/

theorem ratSqrt_nonneg (q : ℚ) : 0 ≤ ratSqrt q := by
  unfold ratSqrt
  positivity

theorem ratSqrt_eq_zero_iff {q : ℚ} : ratSqrt q = 0 ↔ q ≤ 0 := by
  have hden : ((q.den : ℚ)) ≠ 0 := by
    exact_mod_cast q.den_pos.ne'
  unfold ratSqrt
  rw [div_eq_zero_iff]
  constructor
  · rintro (h | h)
    · have h0 : Nat.sqrt (q.num.toNat * q.den) = 0 := by exact_mod_cast h
      rw [Nat.sqrt_eq_zero] at h0
      rcases Nat.mul_eq_zero.mp h0 with h1 | h1
      · have h2 : q.num ≤ 0 := Int.toNat_eq_zero.mp h1
        by_contra hq
        push_neg at hq
        exact absurd (Rat.num_pos.mpr hq) (by omega)
      · exact absurd h1 q.den_pos.ne'
    · exact absurd h hden
  · intro h
    left
    have h2 : q.num ≤ 0 := by
      by_contra hn
      push_neg at hn
      exact absurd (Rat.num_pos.mp hn) (not_lt.mpr h)
    have h1 : q.num.toNat = 0 := Int.toNat_eq_zero.mpr h2
    simp [h1]

/-! ### List-sum facts -/

theorem sumXpts_cons (p : CalculatedPoint) (t : List CalculatedPoint) :
    sumXpts (p :: t) = p.x + sumXpts t := by simp [sumXpts]

theorem sumX2pts_cons (p : CalculatedPoint) (t : List CalculatedPoint) :
    sumX2pts (p :: t) = p.x ^ 2 + sumX2pts t := by simp [sumX2pts]

theorem sumDx2_cons (a : ℚ) (p : CalculatedPoint) (t : List CalculatedPoint) :
    sumDx2 a (p :: t) = (p.x - a) ^ 2 + sumDx2 a t := by simp [sumDx2]

theorem list_sum_eq_zero_iff (l : List ℚ) :
    (∀ x ∈ l, 0 ≤ x) → (l.sum = 0 ↔ ∀ x ∈ l, x = 0) := by
  induction l with
  | nil => intro _; simp
  | cons a t ih =>
      intro h
      have ha : 0 ≤ a := h a (List.mem_cons_self a t)
      have ht : ∀ x ∈ t, 0 ≤ x := fun x hx => h x (List.mem_cons_of_mem a hx)
      have hts : 0 ≤ t.sum := List.sum_nonneg ht
      simp only [List.sum_cons, List.mem_cons]
      constructor
      · intro h0
        have ha0 : a = 0 := by linarith
        have hts0 : t.sum = 0 := by linarith
        intro x hx
        rcases hx with rfl | hx
        · exact ha0
        · exact (ih ht).mp hts0 x hx
      · intro hall
        have ha0 : a = 0 := hall a (Or.inl rfl)
        have ht0 : t.sum = 0 := (ih ht).mpr fun x hx => hall x (Or.inr hx)
        rw [ha0, ht0, add_zero]

theorem sumResSq_nonneg (a b : ℚ) (l : List CalculatedPoint) :
    0 ≤ sumResSq a b l := by
  apply List.sum_nonneg
  intro x hx
  obtain ⟨p, _, rfl⟩ := List.mem_map.mp hx
  positivity

theorem sumDx2_nonneg (mx : ℚ) (l : List CalculatedPoint) : 0 ≤ sumDx2 mx l := by
  apply List.sum_nonneg
  intro x hx
  obtain ⟨p, _, rfl⟩ := List.mem_map.mp hx
  positivity

theorem sumDy2_nonneg (my : ℚ) (l : List CalculatedPoint) : 0 ≤ sumDy2 my l := by
  apply List.sum_nonneg
  intro x hx
  obtain ⟨p, _, rfl⟩ := List.mem_map.mp hx
  positivity

theorem sumDx2_eq_zero_iff (mx : ℚ) (l : List CalculatedPoint) :
    sumDx2 mx l = 0 ↔ ∀ p ∈ l, p.x = mx := by
  unfold sumDx2
  rw [list_sum_eq_zero_iff _ ?hnn]
  case hnn =>
    intro x hx
    obtain ⟨p, _, rfl⟩ := List.mem_map.mp hx
    positivity
  constructor
  · intro h p hp
    have h1 := h ((p.x - mx) ^ 2) (List.mem_map_of_mem _ hp)
    have h2 : p.x - mx = 0 := by
      exact pow_eq_zero_iff (two_ne_zero) |>.mp h1
    linarith
  · intro h x hx
    obtain ⟨p, hp, rfl⟩ := List.mem_map.mp hx
    rw [h p hp]
    ring

theorem sumDy2_eq_zero_iff (my : ℚ) (l : List CalculatedPoint) :
    sumDy2 my l = 0 ↔ ∀ p ∈ l, p.y = my := by
  unfold sumDy2
  rw [list_sum_eq_zero_iff _ ?hnn]
  case hnn =>
    intro x hx
    obtain ⟨p, _, rfl⟩ := List.mem_map.mp hx
    positivity
  constructor
  · intro h p hp
    have h1 := h ((p.y - my) ^ 2) (List.mem_map_of_mem _ hp)
    have h2 : p.y - my = 0 := by
      exact pow_eq_zero_iff (two_ne_zero) |>.mp h1
    linarith
  · intro h x hx
    obtain ⟨p, hp, rfl⟩ := List.mem_map.mp hx
    rw [h p hp]
    ring

theorem sumXpts_const {l : List CalculatedPoint} {c : ℚ}
    (h : ∀ p ∈ l, p.x = c) : sumXpts l = (l.length : ℚ) * c := by
  induction l with
  | nil => simp [sumXpts]
  | cons p t ih =>
      rw [sumXpts_cons, h p (List.mem_cons_self p t),
        ih fun q hq => h q (List.mem_cons_of_mem p hq)]
      push_cast [List.length_cons]
      ring

theorem sumYpts_const {l : List CalculatedPoint} {c : ℚ}
    (h : ∀ p ∈ l, p.y = c) : sumYpts l = (l.length : ℚ) * c := by
  induction l with
  | nil => simp [sumYpts]
  | cons p t ih =>
      have : sumYpts (p :: t) = p.y + sumYpts t := by simp [sumYpts]
      rw [this, h p (List.mem_cons_self p t),
        ih fun q hq => h q (List.mem_cons_of_mem p hq)]
      push_cast [List.length_cons]
      ring

theorem sumDx2_expand (a : ℚ) (t : List CalculatedPoint) :
    sumDx2 a t = sumX2pts t - 2 * a * sumXpts t + (t.length : ℚ) * a ^ 2 := by
  induction t with
  | nil => simp [sumDx2, sumX2pts, sumXpts]
  | cons p r ih =>
      rw [sumDx2_cons, sumX2pts_cons, sumXpts_cons, ih]
      push_cast [List.length_cons]
      ring

/-- `n·Σx² − (Σx)²` over a point list is nonnegative, and zero exactly when
all x-values coincide. -/
theorem denom_list (l : List CalculatedPoint) :
    0 ≤ (l.length : ℚ) * sumX2pts l - sumXpts l ^ 2 ∧
      ((l.length : ℚ) * sumX2pts l - sumXpts l ^ 2 = 0 ↔ allEqX l) := by
  induction l with
  | nil =>
      constructor
      · simp [sumXpts, sumX2pts]
      · constructor
        · intro _ p hp
          simp at hp
        · intro _
          simp [sumXpts, sumX2pts]
  | cons p t ih =>
      obtain ⟨ih1, ih2⟩ := ih
      have hD : ((p :: t).length : ℚ) * sumX2pts (p :: t) - sumXpts (p :: t) ^ 2 =
          ((t.length : ℚ) * sumX2pts t - sumXpts t ^ 2) + sumDx2 p.x t := by
        rw [sumX2pts_cons, sumXpts_cons, sumDx2_expand]
        push_cast [List.length_cons]
        ring
      have hs := sumDx2_nonneg p.x t
      constructor
      · rw [hD]; linarith
      · rw [hD]
        constructor
        · intro h
          have h1 : (t.length : ℚ) * sumX2pts t - sumXpts t ^ 2 = 0 := by linarith
          have h2 : sumDx2 p.x t = 0 := by linarith
          have hall_t : allEqX t := ih2.mp h1
          have hall_p : ∀ q ∈ t, q.x = p.x :=
            fun q hq => (sumDx2_eq_zero_iff p.x t).mp h2 q hq
          intro q1 hq1 q2 hq2
          rcases List.mem_cons.mp hq1 with h1 | h1 <;>
            rcases List.mem_cons.mp hq2 with h2 | h2
          · rw [h1, h2]
          · rw [h1]; exact (hall_p q2 h2).symm
          · rw [h2]; exact hall_p q1 h1
          · exact hall_t q1 h1 q2 h2
        · intro hall
          have h2 : sumDx2 p.x t = 0 :=
            (sumDx2_eq_zero_iff p.x t).mpr fun q hq =>
              hall q (List.mem_cons_of_mem p hq) p (List.mem_cons_self p t)
          have h1 : allEqX t := fun q1 hq1 q2 hq2 =>
            hall q1 (List.mem_cons_of_mem p hq1) q2 (List.mem_cons_of_mem p hq2)
          rw [ih2.mpr h1, h2, add_zero]

/-! ### The accumulation loop -/

theorem residAccum_foldl (a b mx my : ℚ) (l : List CalculatedPoint)
    (c : ℚ × ℚ × ℚ × ℚ) :
    l.foldl (residAccum a b mx my) c =
      (c.1 + sumResSq a b l, c.2.1 + sumCross mx my l,
       c.2.2.1 + sumDx2 mx l, c.2.2.2 + sumDy2 my l) := by
  induction l generalizing c with
  | nil => simp [sumResSq, sumCross, sumDx2, sumDy2]
  | cons p t ih =>
      rw [List.foldl_cons, ih]
      simp only [residAccum, sumResSq, sumCross, sumDx2, sumDy2, List.map_cons,
        List.sum_cons, Prod.mk.injEq]
      refine ⟨by ring, by ring, by ring, by ring⟩

theorem residAccumSpec_foldl (a b mx my : ℚ) (l : List CalculatedPoint)
    (c : ℚ × ℚ × ℚ × ℚ) :
    l.foldl (residAccumSpec a b mx my) c =
      (c.1 + sumResSqSpec a b l, c.2.1 + sumCross mx my l,
       c.2.2.1 + sumDx2 mx l, c.2.2.2 + sumDy2 my l) := by
  induction l generalizing c with
  | nil => simp [sumResSqSpec, sumCross, sumDx2, sumDy2]
  | cons p t ih =>
      rw [List.foldl_cons, ih]
      simp only [residAccumSpec, sumResSqSpec, sumCross, sumDx2, sumDy2,
        List.map_cons, List.sum_cons, Prod.mk.injEq]
      refine ⟨by ring, by ring, by ring, by ring⟩

theorem accOf_eq (s : LinearRegression) :
    accOf s = (sumResSq (aVal s) (bVal s) s.points,
      sumCross (meanX s) (meanY s) s.points,
      sumDx2 (meanX s) s.points, sumDy2 (meanY s) s.points) := by
  unfold accOf
  rw [residAccum_foldl]
  simp

/-! ### Structural facts about push, shift and calculate -/

theorem sumXpts_append (l1 l2 : List CalculatedPoint) :
    sumXpts (l1 ++ l2) = sumXpts l1 + sumXpts l2 := by simp [sumXpts]

theorem sumYpts_append (l1 l2 : List CalculatedPoint) :
    sumYpts (l1 ++ l2) = sumYpts l1 + sumYpts l2 := by simp [sumYpts]

theorem sumXYpts_append (l1 l2 : List CalculatedPoint) :
    sumXYpts (l1 ++ l2) = sumXYpts l1 + sumXYpts l2 := by simp [sumXYpts]

theorem sumX2pts_append (l1 l2 : List CalculatedPoint) :
    sumX2pts (l1 ++ l2) = sumX2pts l1 + sumX2pts l2 := by simp [sumX2pts]

theorem sumY2pts_append (l1 l2 : List CalculatedPoint) :
    sumY2pts (l1 ++ l2) = sumY2pts l1 + sumY2pts l2 := by simp [sumY2pts]

theorem sumYpts_cons (p : CalculatedPoint) (t : List CalculatedPoint) :
    sumYpts (p :: t) = p.y + sumYpts t := by simp [sumYpts]

theorem sumXYpts_cons (p : CalculatedPoint) (t : List CalculatedPoint) :
    sumXYpts (p :: t) = p.x * p.y + sumXYpts t := by simp [sumXYpts]

theorem sumY2pts_cons (p : CalculatedPoint) (t : List CalculatedPoint) :
    sumY2pts (p :: t) = p.y ^ 2 + sumY2pts t := by simp [sumY2pts]

theorem push_nil (s : LinearRegression) : push s [] = s := rfl

theorem push_singleton (s : LinearRegression) (p : Point) :
    push s [p] = clearCalculated (addPoint s (CalculatedPoint.ofPoint p)) := rfl

theorem clearCalculated_fieldsNone (s : LinearRegression) :
    FieldsNone (clearCalculated s) := ⟨rfl, rfl, rfl, rfl⟩

theorem clearCalculated_of_fieldsNone {s : LinearRegression}
    (h : FieldsNone s) : clearCalculated s = s := by
  obtain ⟨h1, h2, h3, h4⟩ := h
  cases s
  simp_all [clearCalculated]

theorem foldl_pushStep_flag (l : List Point) {s : LinearRegression}
    (h : FieldsNone s) :
    (l.foldl pushStep (s, true)).1 = (l.foldl pushStep (s, false)).1 := by
  cases l with
  | nil => rfl
  | cons p t =>
      rw [List.foldl_cons, List.foldl_cons]
      have h1 : pushStep (s, true) p =
          (addPoint s (CalculatedPoint.ofPoint p), true) := rfl
      have h2 : pushStep (s, false) p =
          (clearCalculated (addPoint s (CalculatedPoint.ofPoint p)), true) := rfl
      have h3 : FieldsNone (addPoint s (CalculatedPoint.ofPoint p)) :=
        ⟨h.1, h.2.1, h.2.2.1, h.2.2.2⟩
      rw [h1, h2, clearCalculated_of_fieldsNone h3]

theorem push_cons (s : LinearRegression) (p : Point) (ps : List Point) :
    push s (p :: ps) =
      push (clearCalculated (addPoint s (CalculatedPoint.ofPoint p))) ps := by
  unfold push
  rw [List.foldl_cons]
  have h2 : pushStep (s, false) p =
      (clearCalculated (addPoint s (CalculatedPoint.ofPoint p)), true) := rfl
  rw [h2]
  exact foldl_pushStep_flag ps (clearCalculated_fieldsNone _)

theorem push_eq_singles (ps : List Point) :
    ∀ s : LinearRegression, push s ps = ps.foldl (fun t p => push t [p]) s := by
  induction ps with
  | nil => intro s; rfl
  | cons p t ih =>
      intro s
      rw [push_cons, List.foldl_cons, push_singleton]
      exact ih _

theorem push_fieldsNone_preserved {s : LinearRegression} (h : FieldsNone s) :
    ∀ ps : List Point, FieldsNone (push s ps) := by
  intro ps
  induction ps generalizing s with
  | nil => exact h
  | cons p t ih =>
      rw [push_cons]
      exact ih (clearCalculated_fieldsNone _)

theorem push_cons_fieldsNone (s : LinearRegression) (p : Point)
    (ps : List Point) : FieldsNone (push s (p :: ps)) := by
  rw [push_cons]
  exact push_fieldsNone_preserved (clearCalculated_fieldsNone _) ps

theorem shift_nil {s : LinearRegression} (h : s.points = []) : shift s = s := by
  unfold shift
  rw [h]

theorem shift_cons {s : LinearRegression} {p : CalculatedPoint}
    {rest : List CalculatedPoint} (h : s.points = p :: rest) :
    shift s = clearCalculated
      { s with
        points := rest
        sum_x := s.sum_x - p.x
        sum_y := s.sum_y - p.y
        sum_xy := s.sum_xy - p.xy
        sum_x_squared := s.sum_x_squared - p.x_squared
        sum_y_squared := s.sum_y_squared - p.y_squared } := by
  unfold shift
  rw [h]

theorem shift_fieldsNone {s : LinearRegression} (h : s.points ≠ []) :
    FieldsNone (shift s) := by
  cases hp : s.points with
  | nil => exact absurd hp h
  | cons p rest =>
      rw [shift_cons hp]
      exact clearCalculated_fieldsNone _

theorem Inv_fresh : Inv fresh := by
  refine ⟨rfl, rfl, rfl, rfl, rfl, ?_⟩
  intro p hp
  simp [fresh] at hp

theorem Inv_addPoint {s : LinearRegression} (h : Inv s) (p : Point) :
    Inv (addPoint s (CalculatedPoint.ofPoint p)) := by
  obtain ⟨h1, h2, h3, h4, h5, h6⟩ := h
  refine ⟨?_, ?_, ?_, ?_, ?_, ?_⟩
  · show s.sum_x + p.x = sumXpts (s.points ++ [CalculatedPoint.ofPoint p])
    rw [sumXpts_append, h1]
    simp [sumXpts, CalculatedPoint.ofPoint]
  · show s.sum_y + p.y = sumYpts (s.points ++ [CalculatedPoint.ofPoint p])
    rw [sumYpts_append, h2]
    simp [sumYpts, CalculatedPoint.ofPoint]
  · show s.sum_xy + p.x * p.y = sumXYpts (s.points ++ [CalculatedPoint.ofPoint p])
    rw [sumXYpts_append, h3]
    simp [sumXYpts, CalculatedPoint.ofPoint]
  · show s.sum_x_squared + p.x ^ 2 = sumX2pts (s.points ++ [CalculatedPoint.ofPoint p])
    rw [sumX2pts_append, h4]
    simp [sumX2pts, CalculatedPoint.ofPoint]
  · show s.sum_y_squared + p.y ^ 2 = sumY2pts (s.points ++ [CalculatedPoint.ofPoint p])
    rw [sumY2pts_append, h5]
    simp [sumY2pts, CalculatedPoint.ofPoint]
  · intro q hq
    rcases List.mem_append.mp hq with hq | hq
    · exact h6 q hq
    · have : q = CalculatedPoint.ofPoint p := List.mem_singleton.mp hq
      subst this
      exact ⟨rfl, rfl, rfl⟩

theorem Inv_clearCalculated {s : LinearRegression} (h : Inv s) :
    Inv (clearCalculated s) := h

theorem Inv_push {s : LinearRegression} (h : Inv s) (ps : List Point) :
    Inv (push s ps) := by
  induction ps generalizing s with
  | nil => exact h
  | cons p t ih =>
      rw [push_cons]
      exact ih (Inv_clearCalculated (Inv_addPoint h p))

theorem Inv_shift {s : LinearRegression} (h : Inv s) : Inv (shift s) := by
  obtain ⟨h1, h2, h3, h4, h5, h6⟩ := h
  cases hp : s.points with
  | nil => rw [shift_nil hp]; exact ⟨h1, h2, h3, h4, h5, h6⟩
  | cons p rest =>
      have hpmem := h6 p (by rw [hp]; exact List.mem_cons_self p rest)
      have hmem : ∀ q ∈ rest,
          q.xy = q.x * q.y ∧ q.x_squared = q.x ^ 2 ∧ q.y_squared = q.y ^ 2 :=
        fun q hq => h6 q (by rw [hp]; exact List.mem_cons_of_mem p hq)
      rw [shift_cons hp]
      refine ⟨?_, ?_, ?_, ?_, ?_, fun q hq => hmem q hq⟩
      · show s.sum_x - p.x = sumXpts rest
        rw [h1, hp, sumXpts_cons]; ring
      · show s.sum_y - p.y = sumYpts rest
        rw [h2, hp, sumYpts_cons]; ring
      · show s.sum_xy - p.xy = sumXYpts rest
        rw [h3, hp, sumXYpts_cons, hpmem.1]; ring
      · show s.sum_x_squared - p.x_squared = sumX2pts rest
        rw [h4, hp, sumX2pts_cons, hpmem.2.1]; ring
      · show s.sum_y_squared - p.y_squared = sumY2pts rest
        rw [h5, hp, sumY2pts_cons, hpmem.2.2]; ring

theorem calculate_core (s : LinearRegression) :
    (calculate s).1.points = s.points ∧ (calculate s).1.sum_x = s.sum_x ∧
    (calculate s).1.sum_y = s.sum_y ∧ (calculate s).1.sum_xy = s.sum_xy ∧
    (calculate s).1.sum_x_squared = s.sum_x_squared ∧
    (calculate s).1.sum_y_squared = s.sum_y_squared := by
  simp only [calculate]
  repeat' split
  all_goals exact ⟨rfl, rfl, rfl, rfl, rfl, rfl⟩

theorem Inv_calculate {s : LinearRegression} (h : Inv s) :
    Inv ((calculate s).1) := by
  obtain ⟨c1, c2, c3, c4, c5, c6⟩ := calculate_core s
  obtain ⟨h1, h2, h3, h4, h5, h6⟩ := h
  rw [Inv, c1, c2, c3, c4, c5, c6]
  exact ⟨h1, h2, h3, h4, h5, h6⟩

/-! ### Case analysis of calculate -/

theorem calculate_of_lt2 {s : LinearRegression} (h : s.points.length < 2) :
    calculate s = (s, some Err.notEnoughData) := by
  simp only [calculate]
  rw [if_pos h]

theorem calculate_of_denom0 {s : LinearRegression} (h : 2 ≤ s.points.length)
    (hd : denomQ s = 0) : calculate s = (s, some Err.divByZero) := by
  have h2 : ¬s.points.length < 2 := not_lt.mpr h
  simp only [calculate]
  rw [if_neg h2, if_pos hd]

theorem calculate_of_n2 {s : LinearRegression} (hd : denomQ s ≠ 0)
    (hn : s.points.length = 2) : calculate s = (withAB s, some Err.divByZero) := by
  have h2 : ¬s.points.length < 2 := by omega
  simp only [calculate]
  rw [if_neg h2, if_neg hd, if_pos hn]

theorem calculate_of_big {s : LinearRegression} (hd : denomQ s ≠ 0)
    (hn : 2 < s.points.length) :
    calculate s = if prDenom s = 0 then (withABR s, some Err.divByZero)
      else (calcFull s, none) := by
  have h2 : ¬s.points.length < 2 := by omega
  have hn2 : s.points.length ≠ 2 := by omega
  have hres_nonneg : 0 ≤ (accOf s).1 / (nQ s - 2) := by
    apply div_nonneg
    · rw [accOf_eq]; exact sumResSq_nonneg _ _ _
    · have hc : (2 : ℚ) < nQ s := by
        simp only [nQ]
        exact_mod_cast hn
      linarith
  have hprod_nonneg : 0 ≤ (accOf s).2.2.1 * (accOf s).2.2.2 := by
    rw [accOf_eq]
    exact mul_nonneg (sumDx2_nonneg _ _) (sumDy2_nonneg _ _)
  simp only [calculate]
  rw [if_neg h2, if_neg hd, if_neg hn2, if_neg (not_lt.mpr hres_nonneg),
    if_neg (not_lt.mpr hprod_nonneg)]

theorem calculate_of_big_pr0 {s : LinearRegression} (hd : denomQ s ≠ 0)
    (hn : 2 < s.points.length) (hp : prDenom s = 0) :
    calculate s = (withABR s, some Err.divByZero) := by
  rw [calculate_of_big hd hn, if_pos hp]

theorem calculate_of_big_ok {s : LinearRegression} (hd : denomQ s ≠ 0)
    (hn : 2 < s.points.length) (hp : prDenom s ≠ 0) :
    calculate s = (calcFull s, none) := by
  rw [calculate_of_big hd hn, if_neg hp]

/-- The derived-value functions depend only on the points and sums. -/
theorem core_congr {s t : LinearRegression} (hp : t.points = s.points)
    (h1 : t.sum_x = s.sum_x) (h2 : t.sum_y = s.sum_y) (h3 : t.sum_xy = s.sum_xy)
    (h4 : t.sum_x_squared = s.sum_x_squared)
    (_h5 : t.sum_y_squared = s.sum_y_squared) :
    nQ t = nQ s ∧ denomQ t = denomQ s ∧ aVal t = aVal s ∧ bVal t = bVal s ∧
    accOf t = accOf s ∧ residVal t = residVal s ∧ prDenom t = prDenom s ∧
    prVal t = prVal s := by
  have hn : nQ t = nQ s := by simp only [nQ, hp]
  have hd : denomQ t = denomQ s := by simp only [denomQ, hn, h4, h1]
  have ha : aVal t = aVal s := by simp only [aVal, hd, h2, h4, h1, h3]
  have hb : bVal t = bVal s := by simp only [bVal, hd, hn, h3, h1, h2]
  have hmx : meanX t = meanX s := by simp only [meanX, h1, hn]
  have hmy : meanY t = meanY s := by simp only [meanY, h2, hn]
  have hacc : accOf t = accOf s := by simp only [accOf, hp, ha, hb, hmx, hmy]
  have hres : residVal t = residVal s := by simp only [residVal, hacc, hn]
  have hprd : prDenom t = prDenom s := by simp only [prDenom, hacc]
  have hprv : prVal t = prVal s := by simp only [prVal, hacc, hprd]
  exact ⟨hn, hd, ha, hb, hacc, hres, hprd, hprv⟩

/-! ### The reachable-state invariant -/

theorem goodFields_of_fieldsNone {s : LinearRegression} (h : FieldsNone s) :
    GoodFields s := by
  obtain ⟨h1, h2, h3, h4⟩ := h
  refine ⟨?_, ?_, ?_, ?_, ?_, ?_⟩ <;> simp [h1, h2, h3, h4]

theorem goodFields_withAB {s : LinearRegression} (hd : denomQ s ≠ 0)
    (hlen : 2 ≤ s.points.length) (hres : s.residual = none)
    (hpr : s.pearsons_r = none) : GoodFields (withAB s) := by
  refine ⟨?_, ?_, ?_, ?_, ?_, ?_⟩
  · simp [withAB]
  · simp [withAB, hres]
  · simp [withAB, hpr]
  · intro _
    exact ⟨hlen, hd, rfl, rfl⟩
  · intro hso
    simp [withAB, hres] at hso
  · intro hso
    simp [withAB, hpr] at hso

theorem goodFields_withABR {s : LinearRegression} (hd : denomQ s ≠ 0)
    (hlen : 2 < s.points.length) (hpr : s.pearsons_r = none) :
    GoodFields (withABR s) := by
  refine ⟨?_, ?_, ?_, ?_, ?_, ?_⟩
  · simp [withABR, withAB]
  · simp [withABR, withAB]
  · simp [withABR, withAB, hpr]
  · intro _
    exact ⟨by show 2 ≤ s.points.length; omega, hd, rfl, rfl⟩
  · intro _
    exact ⟨hlen, rfl⟩
  · intro hso
    simp [withABR, withAB, hpr] at hso

theorem goodFields_calcFull {s : LinearRegression} (hd : denomQ s ≠ 0)
    (hlen : 2 < s.points.length) (hp : prDenom s ≠ 0) :
    GoodFields (calcFull s) := by
  refine ⟨?_, ?_, ?_, ?_, ?_, ?_⟩
  · simp [calcFull, withABR, withAB]
  · simp [calcFull, withABR, withAB]
  · simp [calcFull, withABR, withAB]
  · intro _
    exact ⟨by show 2 ≤ s.points.length; omega, hd, rfl, rfl⟩
  · intro _
    exact ⟨hlen, rfl⟩
  · intro _
    exact ⟨hp, rfl⟩

theorem goodFields_calculate {s : LinearRegression} (hg : GoodFields s) :
    GoodFields ((calculate s).1) := by
  obtain ⟨g1, g2, g3, g4, g5, g6⟩ := hg
  rcases lt_or_le s.points.length 2 with hlen | hlen
  · rw [calculate_of_lt2 hlen]
    exact ⟨g1, g2, g3, g4, g5, g6⟩
  · by_cases hd : denomQ s = 0
    · rw [calculate_of_denom0 hlen hd]
      exact ⟨g1, g2, g3, g4, g5, g6⟩
    · rcases eq_or_lt_of_le hlen with hn2 | hbig
      · -- exactly two points: the residual division throws
        rw [calculate_of_n2 hd hn2.symm]
        have hres : s.residual = none := by
          rcases hres0 : s.residual with _ | r
          · rfl
          · exfalso
            have hq := (g5 (by simp [hres0])).1
            omega
        have hpr : s.pearsons_r = none := by
          rcases hpr0 : s.pearsons_r with _ | v
          · rfl
          · exfalso
            have hq := g3 (by simp [hpr0])
            rw [hres] at hq
            simp at hq
        exact goodFields_withAB hd hlen hres hpr
      · by_cases hp : prDenom s = 0
        · rw [calculate_of_big_pr0 hd hbig hp]
          have hpr : s.pearsons_r = none := by
            rcases hpr0 : s.pearsons_r with _ | v
            · rfl
            · exact absurd hp (g6 (by simp [hpr0])).1
          exact goodFields_withABR hd hbig hpr
        · rw [calculate_of_big_ok hd hbig hp]
          exact goodFields_calcFull hd hbig hp

/-- Every reachable state satisfies both the running-sums invariant and the
calculated-fields coherence invariant. -/
theorem reachable_inv {s : LinearRegression} (h : Reachable s) :
    Inv s ∧ GoodFields s := by
  induction h with
  | fresh => exact ⟨Inv_fresh, goodFields_of_fieldsNone ⟨rfl, rfl, rfl, rfl⟩⟩
  | push s ps _ ih =>
      refine ⟨Inv_push ih.1 ps, ?_⟩
      cases ps with
      | nil => exact ih.2
      | cons p t => exact goodFields_of_fieldsNone (push_cons_fieldsNone s p t)
  | shift s _ ih =>
      refine ⟨Inv_shift ih.1, ?_⟩
      rcases hp : s.points with _ | ⟨p, rest⟩
      · rw [shift_nil hp]; exact ih.2
      · exact goodFields_of_fieldsNone (shift_fieldsNone (by rw [hp]; simp))
  | calcStep s _ ih =>
      exact ⟨Inv_calculate ih.1, goodFields_calculate ih.2⟩

/-! ### Accessor characterizations -/

theorem sameCore_refl (s : LinearRegression) : SameCore s s :=
  ⟨rfl, rfl, rfl, rfl, rfl, rfl⟩

theorem sameCore_trans {u t s : LinearRegression} (h1 : SameCore u t)
    (h2 : SameCore t s) : SameCore u s := by
  obtain ⟨a1, a2, a3, a4, a5, a6⟩ := h1
  obtain ⟨b1, b2, b3, b4, b5, b6⟩ := h2
  exact ⟨a1.trans b1, a2.trans b2, a3.trans b3, a4.trans b4, a5.trans b5,
    a6.trans b6⟩

theorem derived_congr {t s : LinearRegression} (h : SameCore t s) :
    nQ t = nQ s ∧ denomQ t = denomQ s ∧ aVal t = aVal s ∧ bVal t = bVal s ∧
    accOf t = accOf s ∧ residVal t = residVal s ∧ prDenom t = prDenom s ∧
    prVal t = prVal s := by
  obtain ⟨hp, h1, h2, h3, h4, h5⟩ := h
  exact core_congr hp h1 h2 h3 h4 h5

theorem sameCore_calcFull (s : LinearRegression) : SameCore (calcFull s) s :=
  ⟨rfl, rfl, rfl, rfl, rfl, rfl⟩

theorem calculate_success {s t : LinearRegression}
    (h : calculate s = (t, none)) :
    t = calcFull s ∧ denomQ s ≠ 0 ∧ 2 < s.points.length ∧ prDenom s ≠ 0 := by
  rcases lt_or_le s.points.length 2 with hlen | hlen
  · rw [calculate_of_lt2 hlen] at h
    simp at h
  · by_cases hd : denomQ s = 0
    · rw [calculate_of_denom0 hlen hd] at h
      simp at h
    · rcases eq_or_lt_of_le hlen with hn2 | hbig
      · rw [calculate_of_n2 hd hn2.symm] at h
        simp at h
      · by_cases hp : prDenom s = 0
        · rw [calculate_of_big_pr0 hd hbig hp] at h
          simp at h
        · rw [calculate_of_big_ok hd hbig hp] at h
          have h1 : calcFull s = t := by
            have := congrArg Prod.fst h
            simpa using this
          exact ⟨h1.symm, hd, hbig, hp⟩

theorem isCalculated_parts {s : LinearRegression} (h : isCalculated s = true) :
    s.a.isSome = true ∧ s.b.isSome = true ∧
    (∃ r, s.residual = some r ∧ r ≠ 0) ∧
    (∃ p, s.pearsons_r = some p ∧ p ≠ 0) := by
  simp only [isCalculated, Bool.and_eq_true] at h
  obtain ⟨⟨⟨ha, hb⟩, hr⟩, hp⟩ := h
  refine ⟨ha, hb, ?_, ?_⟩
  · rcases hr0 : s.residual with _ | r
    · rw [hr0] at hr; simp [numTruthy] at hr
    · rw [hr0] at hr
      simp [numTruthy] at hr
      exact ⟨r, rfl, hr⟩
  · rcases hp0 : s.pearsons_r with _ | p
    · rw [hp0] at hp; simp [numTruthy] at hp
    · rw [hp0] at hp
      simp [numTruthy] at hp
      exact ⟨p, rfl, hp⟩

theorem getValue_ok {s s' : LinearRegression} {x v : ℚ} (hg : GoodFields s)
    (h : getValue s x = (s', Except.ok v)) :
    v = toNumber (bVal s * x + aVal s) ∧ SameCore s' s ∧ GoodFields s' ∧
    s'.a.isSome = true ∧ s'.b.isSome = true := by
  obtain ⟨g1, g2, g3, g4, g5, g6⟩ := hg
  by_cases hab : (s.a.isSome && s.b.isSome) = true
  · rw [getValue, if_pos hab] at h
    obtain ⟨ha, hb⟩ := Bool.and_eq_true _ _ |>.mp hab
    obtain ⟨_, _, hsa, hsb⟩ := g4 ha
    have hs' : s' = s := by
      have := congrArg Prod.fst h
      simpa using this.symm
    have hv : v = toNumber (s.b.getD 0 * x + s.a.getD 0) := by
      have := congrArg Prod.snd h
      simp at this
      exact this.symm
    rw [hs']
    refine ⟨?_, sameCore_refl s, ⟨g1, g2, g3, g4, g5, g6⟩, ha, hb⟩
    rw [hv, hsa, hsb]
    rfl
  · rw [getValue, if_neg hab] at h
    rcases hc : calculate s with ⟨t, e⟩
    rw [hc] at h
    cases e with
    | some e0 => simp at h
    | none =>
        simp only at h
        obtain ⟨ht, hd, hbig, hp⟩ := calculate_success hc
        subst ht
        have hs' : s' = calcFull s := by
          have := congrArg Prod.fst h
          simpa using this.symm
        have hv : v = toNumber ((calcFull s).b.getD 0 * x + (calcFull s).a.getD 0) := by
          have := congrArg Prod.snd h
          simp at this
          exact this.symm
        subst hs'
        exact ⟨hv, sameCore_calcFull s, goodFields_calcFull hd hbig hp, rfl, rfl⟩

theorem getResidual_ok {s s' : LinearRegression} {k r : ℚ} (hg : GoodFields s)
    (h : getResidual s k = (s', Except.ok r)) :
    r = toNumber (residVal s * k) ∧ SameCore s' s ∧ GoodFields s' := by
  obtain ⟨g1, g2, g3, g4, g5, g6⟩ := hg
  by_cases hic : isCalculated s = true
  · rw [getResidual, if_pos hic] at h
    obtain ⟨_, _, ⟨r0, hr0, _⟩, _⟩ := isCalculated_parts hic
    have hres := (g5 (by simp [hr0])).2
    have hs' : s' = s := by
      have := congrArg Prod.fst h
      simpa using this.symm
    have hv : r = toNumber (s.residual.getD 0 * k) := by
      have := congrArg Prod.snd h
      simp at this
      exact this.symm
    rw [hs']
    refine ⟨?_, sameCore_refl s, ⟨g1, g2, g3, g4, g5, g6⟩⟩
    rw [hv, hres]
    rfl
  · rw [getResidual, if_neg hic] at h
    rcases hc : calculate s with ⟨t, e⟩
    rw [hc] at h
    cases e with
    | some e0 => simp at h
    | none =>
        simp only at h
        obtain ⟨ht, hd, hbig, hp⟩ := calculate_success hc
        subst ht
        have hs' : s' = calcFull s := by
          have := congrArg Prod.fst h
          simpa using this.symm
        have hv : r = toNumber ((calcFull s).residual.getD 0 * k) := by
          have := congrArg Prod.snd h
          simp at this
          exact this.symm
        subst hs'
        exact ⟨hv, sameCore_calcFull s, goodFields_calcFull hd hbig hp⟩

theorem getPearsonsR_ok {s s' : LinearRegression} {r : ℚ} (hg : GoodFields s)
    (h : getPearsonsR s = (s', Except.ok r)) :
    r = prVal s ∧ SameCore s' s ∧ GoodFields s' := by
  obtain ⟨g1, g2, g3, g4, g5, g6⟩ := hg
  by_cases hic : isCalculated s = true
  · rw [getPearsonsR, if_pos hic] at h
    obtain ⟨_, _, _, ⟨p0, hp0, _⟩⟩ := isCalculated_parts hic
    have hpr := (g6 (by simp [hp0])).2
    have hs' : s' = s := by
      have := congrArg Prod.fst h
      simpa using this.symm
    have hv : r = s.pearsons_r.getD 0 := by
      have := congrArg Prod.snd h
      simp at this
      exact this.symm
    rw [hs']
    refine ⟨?_, sameCore_refl s, ⟨g1, g2, g3, g4, g5, g6⟩⟩
    rw [hv, hpr]
    rfl
  · rw [getPearsonsR, if_neg hic] at h
    rcases hc : calculate s with ⟨t, e⟩
    rw [hc] at h
    cases e with
    | some e0 => simp at h
    | none =>
        simp only at h
        obtain ⟨ht, hd, hbig, hp⟩ := calculate_success hc
        subst ht
        have hs' : s' = calcFull s := by
          have := congrArg Prod.fst h
          simpa using this.symm
        have hv : r = (calcFull s).pearsons_r.getD 0 := by
          have := congrArg Prod.snd h
          simp at this
          exact this.symm
        subst hs'
        exact ⟨hv, sameCore_calcFull s, goodFields_calcFull hd hbig hp⟩

theorem getSDV_ok {s s' : LinearRegression} {x k v : ℚ} (hg : GoodFields s)
    (h : getStandardDeviationValue s x k = (s', Except.ok v)) :
    v = toNumber (toNumber (bVal s * x + aVal s) + toNumber (residVal s * k)) ∧
    SameCore s' s ∧ GoodFields s' := by
  rcases hv : getValue s x with ⟨s1, rv⟩
  rw [getStandardDeviationValue, hv] at h
  cases rv with
  | error e => simp at h
  | ok v1 =>
      simp only [getStandardDeviation] at h
      rcases hr : getResidual s1 k with ⟨s2, rr⟩
      rw [hr] at h
      cases rr with
      | error e => simp at h
      | ok r1 =>
          simp only at h
          obtain ⟨hv1, hc1, hg1, _, _⟩ := getValue_ok hg hv
          obtain ⟨hr1, hc2, hg2⟩ := getResidual_ok hg1 hr
          have hres1 : residVal s1 = residVal s := (derived_congr hc1).2.2.2.2.2.1
          have hs' : s' = s2 := by
            have := congrArg Prod.fst h
            simpa using this.symm
          have hvv : v = toNumber (v1 + r1) := by
            have := congrArg Prod.snd h
            simp at this
            exact this.symm
          subst hs'
          refine ⟨?_, sameCore_trans hc2 hc1, hg2⟩
          rw [hvv, hv1, hr1, hres1]

/-! ### Evaluation toolkit for concrete instances -/

theorem flPos_rep (m e : ℤ) (h0 : 0 < m) (h53 : m ≤ 2 ^ 53) :
    flPos ((m : ℚ) * 2 ^ e) = (m : ℚ) * 2 ^ e := by
  have hqpos : 0 < (m : ℚ) * 2 ^ e :=
    mul_pos (by exact_mod_cast h0) (two_zpow_pos e)
  rcases eq_or_lt_of_le h53 with h53e | h53l
  · -- the mantissa is exactly 2^53: the value is a power of two
    have hq : (m : ℚ) * 2 ^ e = (2 : ℚ) ^ (e + 53) := by
      rw [h53e, ← q_pow53, two_zpow_mul]
      congr 1
      omega
    rw [hq]
    have hpos2 : (0 : ℚ) < 2 ^ (e + 53) := two_zpow_pos _
    have hlog : Int.log 2 ((2 : ℚ) ^ (e + 53)) = e + 53 :=
      log2_eq_of_bounds hpos2 le_rfl (zpow_lt_zpow_right₀ (by norm_num) (by omega))
    rw [flPos_of_pos hpos2, hlog, two_zpow_mul]
    have h1 : e + 53 + (52 - (e + 53)) = 52 := by omega
    rw [h1, q_pow52, roundTiesEven_intCast, ← q_pow52, two_zpow_mul]
    congr 1
    omega
  · set L := Int.log 2 ((m : ℚ) * 2 ^ e) with hL
    have hub : (m : ℚ) * 2 ^ e < (2 : ℚ) ^ (e + 53) := by
      have h1 : (m : ℚ) < ((2 ^ 53 : ℤ) : ℚ) := by exact_mod_cast h53l
      have h2 := mul_lt_mul_of_pos_right h1 (two_zpow_pos e)
      rw [← q_pow53, two_zpow_mul] at h2
      have h3 : (53 : ℤ) + e = e + 53 := by omega
      rwa [h3] at h2
    have hLub : L < e + 53 := by
      by_contra hc
      push_neg at hc
      have hle := log2_self_le hqpos
      rw [← hL] at hle
      have h2 : (2 : ℚ) ^ (e + 53) ≤ 2 ^ L := zpow_le_zpow_right₀ (by norm_num) hc
      linarith
    have hexp : (0 : ℤ) ≤ e + 52 - L := by omega
    have hsc : (m : ℚ) * 2 ^ e * 2 ^ (52 - L) =
        ((m * 2 ^ (e + 52 - L).toNat : ℤ) : ℚ) := by
      push_cast
      rw [mul_assoc, two_zpow_mul]
      congr 1
      rw [← zpow_natCast (2 : ℚ) (e + 52 - L).toNat]
      congr 1
      omega
    rw [flPos_of_pos hqpos, ← hL, hsc, roundTiesEven_intCast]
    push_cast
    rw [mul_assoc]
    congr 1
    rw [← zpow_natCast (2 : ℚ) (e + 52 - L).toNat, two_zpow_mul]
    congr 1
    omega

theorem toNumber_rep (m e : ℤ) (h53 : m.natAbs ≤ 2 ^ 53) :
    toNumber ((m : ℚ) * 2 ^ e) = (m : ℚ) * 2 ^ e := by
  rcases lt_trichotomy m 0 with hm | hm | hm
  · have hneg : (m : ℚ) * 2 ^ e < 0 :=
      mul_neg_of_neg_of_pos (by exact_mod_cast hm) (two_zpow_pos e)
    rw [toNumber, if_pos hneg]
    have h1 : -((m : ℚ) * 2 ^ e) = ((-m : ℤ) : ℚ) * 2 ^ e := by push_cast; ring
    rw [h1, flPos_rep (-m) e (by omega) (by omega)]
    push_cast
    ring
  · rw [hm]
    simp [toNumber_zero]
  · rw [toNumber_of_nonneg
      (mul_nonneg (by exact_mod_cast hm.le) (two_zpow_pos e).le)]
    exact flPos_rep m e hm (by omega)

/-- Integers of magnitude up to 2^53 convert to a native float exactly. -/
theorem toNumber_int (m : ℤ) (h53 : m.natAbs ≤ 2 ^ 53) :
    toNumber (m : ℚ) = (m : ℚ) := by
  have h := toNumber_rep m 0 h53
  simpa using h

theorem ratSqrt_zero : ratSqrt 0 = 0 := ratSqrt_eq_zero_iff.mpr le_rfl

theorem ratSqrt_natCast_sq (k : ℕ) : ratSqrt ((k : ℚ) ^ 2) = k := by
  have hcast : ((k : ℚ) ^ 2) = (((k ^ 2 : ℕ)) : ℚ) := by push_cast; ring
  rw [hcast]
  unfold ratSqrt
  rw [Rat.num_natCast, Rat.den_natCast, Int.toNat_natCast, mul_one, Nat.sqrt_eq']
  simp

theorem push_points (s : LinearRegression) (ps : List Point) :
    (push s ps).points = s.points ++ ps.map CalculatedPoint.ofPoint := by
  induction ps generalizing s with
  | nil => simp [push_nil]
  | cons p t ih =>
      rw [push_cons, ih]
      simp [clearCalculated, addPoint]

theorem push_points_length (s : LinearRegression) (ps : List Point) :
    (push s ps).points.length = s.points.length + ps.length := by
  rw [push_points]
  simp

theorem fresh_points : fresh.points = [] := rfl

theorem Inv_runOps (ops : List Op) : Inv (runOps ops) := by
  have key : ∀ (l : List Op) (s : LinearRegression), Inv s →
      Inv (l.foldl applyOp s) := by
    intro l
    induction l with
    | nil => intro s h; exact h
    | cons op t ih =>
        intro s h
        rw [List.foldl_cons]
        apply ih
        cases op with
        | pushOp ps => exact Inv_push h ps
        | shiftOp => exact Inv_shift h
  exact key ops fresh Inv_fresh

/-- Claim C1: for every sequence of push and shift operations starting from
a fresh instance, each of the five accumulators (sum_x, sum_y, sum_xy,
sum_x_squared, sum_y_squared) exactly equals the corresponding sum
(Σx, Σy, Σxy, Σx², Σy²) over the currently stored points, under the exact
decimal arithmetic of the model. -/
theorem c1_running_sums (ops : List Op) :
    (runOps ops).sum_x = sumXpts (runOps ops).points ∧
    (runOps ops).sum_y = sumYpts (runOps ops).points ∧
    (runOps ops).sum_xy = sumXYpts (runOps ops).points ∧
    (runOps ops).sum_x_squared = sumX2pts (runOps ops).points ∧
    (runOps ops).sum_y_squared = sumY2pts (runOps ops).points := by
  obtain ⟨h1, h2, h3, h4, h5, _⟩ := Inv_runOps ops
  exact ⟨h1, h2, h3, h4, h5⟩

/-- Claim C7: constructing an instance with a whole point sequence at once
and constructing empty then pushing the points one at a time yield the very
same state, and hence identical coefficients, residual and Pearson value
after calculation. -/
theorem c7_incremental_equals_batch (ps : List Point) :
    construct ps = ps.foldl (fun t p => push t [p]) fresh ∧
    (calculate (construct ps)).1.a =
      (calculate (ps.foldl (fun t p => push t [p]) fresh)).1.a ∧
    (calculate (construct ps)).1.b =
      (calculate (ps.foldl (fun t p => push t [p]) fresh)).1.b ∧
    (calculate (construct ps)).1.residual =
      (calculate (ps.foldl (fun t p => push t [p]) fresh)).1.residual ∧
    (calculate (construct ps)).1.pearsons_r =
      (calculate (ps.foldl (fun t p => push t [p]) fresh)).1.pearsons_r := by
  have h : construct ps = ps.foldl (fun t p => push t [p]) fresh :=
    push_eq_singles ps fresh
  exact ⟨h, by rw [h], by rw [h], by rw [h], by rw [h]⟩

/-- Claim C2: on an instance whose sums match its stored points, with at
least two points and a nonzero shared denominator denom = n·Σx² − (Σx)²,
calculate() assigns the coefficients a = (Σy·Σx² − Σx·Σxy) / denom and
b = (n·Σxy − Σx·Σy) / denom, both formulas dividing by the same denom
(computed once in the source, line 152). -/
theorem c2_coefficients (s : LinearRegression) (hInv : Inv s)
    (hn : 2 ≤ s.points.length)
    (hd : (s.points.length : ℚ) * sumX2pts s.points - sumXpts s.points ^ 2 ≠ 0) :
    (calculate s).1.a = some ((sumYpts s.points * sumX2pts s.points -
        sumXpts s.points * sumXYpts s.points) /
      ((s.points.length : ℚ) * sumX2pts s.points - sumXpts s.points ^ 2)) ∧
    (calculate s).1.b = some (((s.points.length : ℚ) * sumXYpts s.points -
        sumXpts s.points * sumYpts s.points) /
      ((s.points.length : ℚ) * sumX2pts s.points - sumXpts s.points ^ 2)) := by
  obtain ⟨h1, h2, h3, h4, h5, h6⟩ := hInv
  have hdQ : denomQ s ≠ 0 := by
    simp only [denomQ, nQ, h1, h4]
    exact hd
  have ha : aVal s = (sumYpts s.points * sumX2pts s.points -
      sumXpts s.points * sumXYpts s.points) /
      ((s.points.length : ℚ) * sumX2pts s.points - sumXpts s.points ^ 2) := by
    simp only [aVal, denomQ, nQ, h1, h2, h3, h4]
  have hb : bVal s = ((s.points.length : ℚ) * sumXYpts s.points -
      sumXpts s.points * sumYpts s.points) /
      ((s.points.length : ℚ) * sumX2pts s.points - sumXpts s.points ^ 2) := by
    simp only [bVal, denomQ, nQ, h1, h2, h3, h4]
  rcases eq_or_lt_of_le hn with hn2 | hbig
  · rw [calculate_of_n2 hdQ hn2.symm]
    constructor
    · show some (aVal s) = _
      rw [ha]
    · show some (bVal s) = _
      rw [hb]
  · by_cases hp : prDenom s = 0
    · rw [calculate_of_big_pr0 hdQ hbig hp]
      constructor
      · show some (aVal s) = _
        rw [ha]
      · show some (bVal s) = _
        rw [hb]
    · rw [calculate_of_big_ok hdQ hbig hp]
      constructor
      · show some (aVal s) = _
        rw [ha]
      · show some (bVal s) = _
        rw [hb]

theorem c2_coefficients_witness :
    (calculate (push fresh [⟨0, 0⟩, ⟨1, 1⟩])).1.a =
      some ((sumYpts (push fresh [⟨0, 0⟩, ⟨1, 1⟩]).points *
          sumX2pts (push fresh [⟨0, 0⟩, ⟨1, 1⟩]).points -
        sumXpts (push fresh [⟨0, 0⟩, ⟨1, 1⟩]).points *
          sumXYpts (push fresh [⟨0, 0⟩, ⟨1, 1⟩]).points) /
      (((push fresh [⟨0, 0⟩, ⟨1, 1⟩]).points.length : ℚ) *
          sumX2pts (push fresh [⟨0, 0⟩, ⟨1, 1⟩]).points -
        sumXpts (push fresh [⟨0, 0⟩, ⟨1, 1⟩]).points ^ 2)) ∧
    (calculate (push fresh [⟨0, 0⟩, ⟨1, 1⟩])).1.b =
      some ((((push fresh [⟨0, 0⟩, ⟨1, 1⟩]).points.length : ℚ) *
          sumXYpts (push fresh [⟨0, 0⟩, ⟨1, 1⟩]).points -
        sumXpts (push fresh [⟨0, 0⟩, ⟨1, 1⟩]).points *
          sumYpts (push fresh [⟨0, 0⟩, ⟨1, 1⟩]).points) /
      (((push fresh [⟨0, 0⟩, ⟨1, 1⟩]).points.length : ℚ) *
          sumX2pts (push fresh [⟨0, 0⟩, ⟨1, 1⟩]).points -
        sumXpts (push fresh [⟨0, 0⟩, ⟨1, 1⟩]).points ^ 2)) :=
  c2_coefficients (push fresh [⟨0, 0⟩, ⟨1, 1⟩])
    (Inv_push Inv_fresh [⟨0, 0⟩, ⟨1, 1⟩])
    (by rw [push_points_length]; simp [fresh])
    (by
      rw [push_points]
      norm_num [fresh, sumX2pts, sumXpts, CalculatedPoint.ofPoint])

/-- Claim C4: calculate() throws NotEnoughDataError exactly when fewer than
two points are stored; every accessor invoked while the derived state is
invalid on such an instance propagates the same error; with two or more
points calculate() never throws NotEnoughDataError. -/
theorem c4_not_enough_data (s : LinearRegression) (x k : ℚ) :
    ((calculate s).2 = some Err.notEnoughData ↔ s.points.length < 2) ∧
    (s.points.length < 2 → s.a = none →
      (getValue s x).2 = Except.error Err.notEnoughData ∧
      (getResidual s k).2 = Except.error Err.notEnoughData ∧
      (getStandardDeviation s k).2 = Except.error Err.notEnoughData ∧
      (getPearsonsR s).2 = Except.error Err.notEnoughData ∧
      (getStandardDeviationValue s x k).2 = Except.error Err.notEnoughData ∧
      (getValues s x k).2 = Except.error Err.notEnoughData) := by
  constructor
  · constructor
    · intro h
      by_contra hlen
      push_neg at hlen
      by_cases hd : denomQ s = 0
      · rw [calculate_of_denom0 hlen hd] at h
        simp at h
      · rcases eq_or_lt_of_le hlen with hn2 | hbig
        · rw [calculate_of_n2 hd hn2.symm] at h
          simp at h
        · by_cases hp : prDenom s = 0
          · rw [calculate_of_big_pr0 hd hbig hp] at h
            simp at h
          · rw [calculate_of_big_ok hd hbig hp] at h
            simp at h
    · intro h
      rw [calculate_of_lt2 h]
  · intro hlen ha
    have hcalc : calculate s = (s, some Err.notEnoughData) := calculate_of_lt2 hlen
    have hv : getValue s x = (s, Except.error Err.notEnoughData) := by
      rw [getValue, if_neg (by simp [ha]), hcalc]
    have hic : isCalculated s = false := by simp [isCalculated, ha]
    have hr : getResidual s k = (s, Except.error Err.notEnoughData) := by
      rw [getResidual, if_neg (by simp [hic]), hcalc]
    have hpr : getPearsonsR s = (s, Except.error Err.notEnoughData) := by
      rw [getPearsonsR, if_neg (by simp [hic]), hcalc]
    have hsdv : ∀ k0, getStandardDeviationValue s x k0 =
        (s, Except.error Err.notEnoughData) := by
      intro k0
      rw [getStandardDeviationValue, hv]
    have hvs : getValues s x k = (s, Except.error Err.notEnoughData) := by
      rw [getValues, hsdv _]
    refine ⟨by rw [hv], by rw [hr], ?_, by rw [hpr], by rw [hsdv k], by rw [hvs]⟩
    have hgsd : getStandardDeviation s k = getResidual s k := rfl
    rw [hgsd, hr]

theorem c4_witness :
    ((calculate fresh).2 = some Err.notEnoughData ↔ fresh.points.length < 2) ∧
    ((getValue fresh 0).2 = Except.error Err.notEnoughData ∧
     (getResidual fresh 1).2 = Except.error Err.notEnoughData ∧
     (getStandardDeviation fresh 1).2 = Except.error Err.notEnoughData ∧
     (getPearsonsR fresh).2 = Except.error Err.notEnoughData ∧
     (getStandardDeviationValue fresh 0 1).2 = Except.error Err.notEnoughData ∧
     (getValues fresh 0 1).2 = Except.error Err.notEnoughData) :=
  ⟨(c4_not_enough_data fresh 0 1).1,
   (c4_not_enough_data fresh 0 1).2 (by simp [fresh]) rfl⟩

/-- Claim C5: on an instance whose sums match its stored points, with at
least two stored points, calculate() fails with the division-by-zero error
exactly in the degenerate cases — all x-values identical (zero coefficient
denominator), exactly two points stored (zero residual degrees of freedom),
or zero variance on one of the axes (zero Pearson denominator) — and any
error it raises then is the division-by-zero error, never a silently
coerced value. -/
theorem c5_degenerate (s : LinearRegression) (hInv : Inv s)
    (hn : 2 ≤ s.points.length) :
    ((calculate s).2 = some Err.divByZero ↔
      (allEqX s.points ∨ s.points.length = 2 ∨ allEqY s.points)) ∧
    (∀ e, (calculate s).2 = some e → e = Err.divByZero) := by
  obtain ⟨h1, h2, h3, h4, h5, h6⟩ := hInv
  have hne : s.points ≠ [] := by
    intro h0
    rw [h0] at hn
    simp at hn
  have hlenQ : ((s.points.length : ℚ)) ≠ 0 := by
    have hz : s.points.length ≠ 0 := by omega
    exact_mod_cast hz
  have hdenom_iff : denomQ s = 0 ↔ allEqX s.points := by
    have hD : denomQ s = (s.points.length : ℚ) * sumX2pts s.points -
        sumXpts s.points ^ 2 := by
      simp only [denomQ, nQ, h1, h4]
    rw [hD]
    exact (denom_list s.points).2
  have hmx : ∀ c, (∀ p ∈ s.points, p.x = c) → meanX s = c := by
    intro c hc
    have hsum : sumXpts s.points = (s.points.length : ℚ) * c := sumXpts_const hc
    rw [meanX, h1, hsum, nQ, mul_comm, mul_div_assoc, div_self hlenQ, mul_one]
  have hmy : ∀ c, (∀ p ∈ s.points, p.y = c) → meanY s = c := by
    intro c hc
    have hsum : sumYpts s.points = (s.points.length : ℚ) * c := sumYpts_const hc
    rw [meanY, h2, hsum, nQ, mul_comm, mul_div_assoc, div_self hlenQ, mul_one]
  have hallX_mean : allEqX s.points ↔ (∀ p ∈ s.points, p.x = meanX s) := by
    constructor
    · intro hall
      obtain ⟨p0, hp0⟩ := List.exists_mem_of_ne_nil s.points hne
      have hc : ∀ p ∈ s.points, p.x = p0.x := fun p hp => hall p hp p0 hp0
      have hm := hmx p0.x hc
      intro p hp
      rw [hc p hp, hm]
    · intro hall p hp q hq
      rw [hall p hp, hall q hq]
  have hallY_mean : allEqY s.points ↔ (∀ p ∈ s.points, p.y = meanY s) := by
    constructor
    · intro hall
      obtain ⟨p0, hp0⟩ := List.exists_mem_of_ne_nil s.points hne
      have hc : ∀ p ∈ s.points, p.y = p0.y := fun p hp => hall p hp p0 hp0
      have hm := hmy p0.y hc
      intro p hp
      rw [hc p hp, hm]
    · intro hall p hp q hq
      rw [hall p hp, hall q hq]
  have haccx : (accOf s).2.2.1 = sumDx2 (meanX s) s.points := by rw [accOf_eq]
  have haccy : (accOf s).2.2.2 = sumDy2 (meanY s) s.points := by rw [accOf_eq]
  have hpr_iff : prDenom s = 0 ↔ (allEqX s.points ∨ allEqY s.points) := by
    rw [prDenom, ratSqrt_eq_zero_iff, haccx, haccy]
    have hx := sumDx2_nonneg (meanX s) s.points
    have hy := sumDy2_nonneg (meanY s) s.points
    constructor
    · intro hle
      have h0 : sumDx2 (meanX s) s.points * sumDy2 (meanY s) s.points = 0 :=
        le_antisymm hle (mul_nonneg hx hy)
      rcases mul_eq_zero.mp h0 with hz | hz
      · exact Or.inl (hallX_mean.mpr ((sumDx2_eq_zero_iff _ _).mp hz))
      · exact Or.inr (hallY_mean.mpr ((sumDy2_eq_zero_iff _ _).mp hz))
    · intro hor
      rcases hor with hor | hor
      · rw [(sumDx2_eq_zero_iff _ _).mpr (hallX_mean.mp hor), zero_mul]
      · rw [(sumDy2_eq_zero_iff _ _).mpr (hallY_mean.mp hor), mul_zero]
  by_cases hd : denomQ s = 0
  · rw [calculate_of_denom0 hn hd]
    refine ⟨⟨fun _ => Or.inl (hdenom_iff.mp hd), fun _ => rfl⟩, ?_⟩
    intro e he
    simp at he
    exact he.symm
  · rcases eq_or_lt_of_le hn with hn2 | hbig
    · rw [calculate_of_n2 hd hn2.symm]
      refine ⟨⟨fun _ => Or.inr (Or.inl hn2.symm), fun _ => rfl⟩, ?_⟩
      intro e he
      simp at he
      exact he.symm
    · by_cases hp : prDenom s = 0
      · rw [calculate_of_big_pr0 hd hbig hp]
        have hnx : ¬allEqX s.points := fun hc => hd (hdenom_iff.mpr hc)
        have hy : allEqY s.points := by
          rcases hpr_iff.mp hp with hc | hc
          · exact absurd hc hnx
          · exact hc
        refine ⟨⟨fun _ => Or.inr (Or.inr hy), fun _ => rfl⟩, ?_⟩
        intro e he
        simp at he
        exact he.symm
      · rw [calculate_of_big_ok hd hbig hp]
        refine ⟨⟨?_, ?_⟩, ?_⟩
        · intro h0
          simp at h0
        · intro hor
          exfalso
          rcases hor with hc | hc | hc
          · exact hd (hdenom_iff.mpr hc)
          · omega
          · exact hp (hpr_iff.mpr (Or.inr hc))
        · intro e he
          simp at he

theorem c5_witness :
    (((calculate (push fresh [⟨0, 0⟩, ⟨1, 1⟩])).2 = some Err.divByZero ↔
      (allEqX (push fresh [⟨0, 0⟩, ⟨1, 1⟩]).points ∨
        (push fresh [⟨0, 0⟩, ⟨1, 1⟩]).points.length = 2 ∨
        allEqY (push fresh [⟨0, 0⟩, ⟨1, 1⟩]).points)) ∧
    (∀ e, (calculate (push fresh [⟨0, 0⟩, ⟨1, 1⟩])).2 = some e →
      e = Err.divByZero)) :=
  c5_degenerate (push fresh [⟨0, 0⟩, ⟨1, 1⟩]) (Inv_push Inv_fresh _)
    (by rw [push_points_length]; simp [fresh])

/-- Claim C6 counterexample: after pushing (0,0), (1,1) and calling
calculate — which solves the coefficients and then throws the
division-by-zero at the residual step — the coefficient a is present while
both derived statistics are absent, refuting that the derived statistics
are present exactly when the coefficients are in every reachable state. -/
theorem c6_counterexample :
    (calculate (push fresh [⟨0, 0⟩, ⟨1, 1⟩])).1.a.isSome = true ∧
    (calculate (push fresh [⟨0, 0⟩, ⟨1, 1⟩])).1.residual.isSome = false ∧
    (calculate (push fresh [⟨0, 0⟩, ⟨1, 1⟩])).1.pearsons_r.isSome = false := by
  have hlen : (push fresh [(⟨0, 0⟩ : Point), ⟨1, 1⟩]).points.length = 2 := by
    rw [push_points_length]
    simp [fresh]
  obtain ⟨h1, _, _, h4, _, _⟩ := Inv_push Inv_fresh [(⟨0, 0⟩ : Point), ⟨1, 1⟩]
  have hd : denomQ (push fresh [(⟨0, 0⟩ : Point), ⟨1, 1⟩]) ≠ 0 := by
    simp only [denomQ, nQ, h1, h4]
    rw [push_points]
    norm_num [fresh, sumX2pts, sumXpts, CalculatedPoint.ofPoint]
  have hfn := push_cons_fieldsNone fresh ⟨0, 0⟩ [⟨1, 1⟩]
  rw [calculate_of_n2 hd hlen]
  refine ⟨by simp [withAB], ?_, ?_⟩
  · simp [withAB, hfn.2.2.1]
  · simp [withAB, hfn.2.2.2]

/-- Claim C6 (amended): in every reachable state the presence of the
derived fields is monotone — pearsons_r present implies residual present
implies the coefficients present — and a and b are always present
together; a fully successful calculate makes all four present; every
nonempty push and every shift on a nonempty instance clear all four.  (A
calculate that throws after the coefficient solve can leave coefficients
present with statistics absent, which is what the counterexample
exhibits.) -/
theorem c6_amended (s : LinearRegression) (h : Reachable s) :
    (s.a.isSome ↔ s.b.isSome) ∧
    (s.residual.isSome → s.a.isSome = true) ∧
    (s.pearsons_r.isSome → s.residual.isSome = true) ∧
    ((calculate s).2 = none →
      (calculate s).1.a.isSome = true ∧ (calculate s).1.b.isSome = true ∧
      (calculate s).1.residual.isSome = true ∧
      (calculate s).1.pearsons_r.isSome = true) ∧
    (∀ p ps, FieldsNone (push s (p :: ps))) ∧
    (s.points ≠ [] → FieldsNone (shift s)) := by
  obtain ⟨_, hg⟩ := reachable_inv h
  obtain ⟨g1, g2, g3, _, _, _⟩ := hg
  refine ⟨g1, g2, g3, ?_, fun p ps => push_cons_fieldsNone s p ps,
    fun hne => shift_fieldsNone hne⟩
  intro hsucc
  have hc2 : calculate s = ((calculate s).1, none) := by
    rcases hc : calculate s with ⟨t, e⟩
    rw [hc] at hsucc
    simp at hsucc
    rw [hsucc]
  obtain ⟨ht, _, _, _⟩ := calculate_success hc2
  rw [ht]
  refine ⟨?_, ?_, ?_, ?_⟩ <;> simp [calcFull, withABR, withAB]

theorem c6_amended_witness :
    ((fresh.a.isSome ↔ fresh.b.isSome) ∧
    (fresh.residual.isSome → fresh.a.isSome = true) ∧
    (fresh.pearsons_r.isSome → fresh.residual.isSome = true) ∧
    ((calculate fresh).2 = none →
      (calculate fresh).1.a.isSome = true ∧ (calculate fresh).1.b.isSome = true ∧
      (calculate fresh).1.residual.isSome = true ∧
      (calculate fresh).1.pearsons_r.isSome = true) ∧
    (∀ p ps, FieldsNone (push fresh (p :: ps))) ∧
    (fresh.points ≠ [] → FieldsNone (shift fresh))) :=
  c6_amended fresh Reachable.fresh

/-- Claim C10 counterexample: with the three points (0,5), (1,5), (2,5) the
calculation solves the coefficients and throws the division-by-zero at the
Pearson step — and the residual IS assigned at that moment, refuting that a
division-by-zero thrown after the coefficient solve always leaves residual
unset. -/
theorem c10_counterexample :
    (calculate (push fresh [⟨0, 5⟩, ⟨1, 5⟩, ⟨2, 5⟩])).2 = some Err.divByZero ∧
    (calculate (push fresh [⟨0, 5⟩, ⟨1, 5⟩, ⟨2, 5⟩])).1.a.isSome = true ∧
    (calculate (push fresh [⟨0, 5⟩, ⟨1, 5⟩, ⟨2, 5⟩])).1.residual.isSome = true := by
  obtain ⟨h1, h2, _, h4, _, _⟩ := Inv_push Inv_fresh [(⟨0, 5⟩ : Point), ⟨1, 5⟩, ⟨2, 5⟩]
  have hpts := push_points fresh [(⟨0, 5⟩ : Point), ⟨1, 5⟩, ⟨2, 5⟩]
  have hlen : (push fresh [(⟨0, 5⟩ : Point), ⟨1, 5⟩, ⟨2, 5⟩]).points.length = 3 := by
    rw [push_points_length]
    simp [fresh]
  have hbig : 2 < (push fresh [(⟨0, 5⟩ : Point), ⟨1, 5⟩, ⟨2, 5⟩]).points.length := by
    omega
  have hd : denomQ (push fresh [(⟨0, 5⟩ : Point), ⟨1, 5⟩, ⟨2, 5⟩]) ≠ 0 := by
    simp only [denomQ, nQ, h1, h4]
    rw [hpts]
    norm_num [fresh, sumX2pts, sumXpts, CalculatedPoint.ofPoint]
  have hmy : meanY (push fresh [(⟨0, 5⟩ : Point), ⟨1, 5⟩, ⟨2, 5⟩]) = 5 := by
    simp only [meanY, nQ, h2]
    rw [hpts]
    norm_num [fresh, sumYpts, CalculatedPoint.ofPoint]
  have hp : prDenom (push fresh [(⟨0, 5⟩ : Point), ⟨1, 5⟩, ⟨2, 5⟩]) = 0 := by
    rw [prDenom, ratSqrt_eq_zero_iff]
    have hy : (accOf (push fresh [(⟨0, 5⟩ : Point), ⟨1, 5⟩, ⟨2, 5⟩])).2.2.2 = 0 := by
      rw [accOf_eq]
      show sumDy2 (meanY (push fresh [(⟨0, 5⟩ : Point), ⟨1, 5⟩, ⟨2, 5⟩]))
        (push fresh [(⟨0, 5⟩ : Point), ⟨1, 5⟩, ⟨2, 5⟩]).points = 0
      rw [hmy, hpts]
      norm_num [sumDy2, fresh, CalculatedPoint.ofPoint]
    rw [hy, mul_zero]
  rw [calculate_of_big_pr0 hd hbig hp]
  refine ⟨rfl, ?_, ?_⟩ <;> simp [withABR, withAB]

/-- Claim C10 (amended): when calculate() throws the division-by-zero at
the residual step — exactly two points stored with nonzero coefficient
denominator and previously unset statistics — the coefficients a and b
remain assigned from the failed call while residual and pearsons_r remain
unset, and a subsequent getValue(x) on the unchanged instance returns
b·x + a (converted to a native number, as every getValue result is) without
throwing and without re-running the calculation: the state it returns is
unchanged.  (When the throw is at the later Pearson step, residual is
additionally assigned, as the counterexample shows.) -/
theorem c10_amended (s : LinearRegression) (x : ℚ) (hd : denomQ s ≠ 0)
    (hn : s.points.length = 2) (hres : s.residual = none)
    (hpr : s.pearsons_r = none) :
    calculate s = (withAB s, some Err.divByZero) ∧
    (withAB s).a = some (aVal s) ∧ (withAB s).b = some (bVal s) ∧
    (withAB s).residual = none ∧ (withAB s).pearsons_r = none ∧
    getValue (withAB s) x =
      (withAB s, Except.ok (toNumber (bVal s * x + aVal s))) := by
  refine ⟨calculate_of_n2 hd hn, rfl, rfl, hres, hpr, ?_⟩
  rw [getValue, if_pos (by simp [withAB])]
  rfl

theorem c10_amended_witness :
    calculate (push fresh [⟨0, 0⟩, ⟨1, 1⟩]) =
      (withAB (push fresh [⟨0, 0⟩, ⟨1, 1⟩]), some Err.divByZero) ∧
    (withAB (push fresh [⟨0, 0⟩, ⟨1, 1⟩])).a =
      some (aVal (push fresh [⟨0, 0⟩, ⟨1, 1⟩])) ∧
    (withAB (push fresh [⟨0, 0⟩, ⟨1, 1⟩])).b =
      some (bVal (push fresh [⟨0, 0⟩, ⟨1, 1⟩])) ∧
    (withAB (push fresh [⟨0, 0⟩, ⟨1, 1⟩])).residual = none ∧
    (withAB (push fresh [⟨0, 0⟩, ⟨1, 1⟩])).pearsons_r = none ∧
    getValue (withAB (push fresh [⟨0, 0⟩, ⟨1, 1⟩])) 2 =
      (withAB (push fresh [⟨0, 0⟩, ⟨1, 1⟩]),
        Except.ok (toNumber (bVal (push fresh [⟨0, 0⟩, ⟨1, 1⟩]) * 2 +
          aVal (push fresh [⟨0, 0⟩, ⟨1, 1⟩])))) :=
  c10_amended (push fresh [⟨0, 0⟩, ⟨1, 1⟩]) 2
    (by
      obtain ⟨h1, _, _, h4, _, _⟩ := Inv_push Inv_fresh [(⟨0, 0⟩ : Point), ⟨1, 1⟩]
      simp only [denomQ, nQ, h1, h4]
      rw [push_points]
      norm_num [fresh, sumX2pts, sumXpts, CalculatedPoint.ofPoint])
    (by rw [push_points_length]; simp [fresh])
    (push_cons_fieldsNone fresh ⟨0, 0⟩ [⟨1, 1⟩]).2.2.1
    (push_cons_fieldsNone fresh ⟨0, 0⟩ [⟨1, 1⟩]).2.2.2

/-- Claim C3 counterexample: with the points (0,0), (1,1), (2,2) the
calculation succeeds and caches all four results — yet `isCalculated()`
returns false, because the cached residual is the number 0, which is falsy.
This refutes the claim that the accessors return the cached results
whenever a calculation has completed and its results are cached: a
subsequent accessor call sees `isCalculated()` false and recalculates. -/
theorem c3_counterexample :
    (calculate (push fresh [⟨0, 0⟩, ⟨1, 1⟩, ⟨2, 2⟩])).2 = none ∧
    (calculate (push fresh [⟨0, 0⟩, ⟨1, 1⟩, ⟨2, 2⟩])).1.a.isSome = true ∧
    (calculate (push fresh [⟨0, 0⟩, ⟨1, 1⟩, ⟨2, 2⟩])).1.b.isSome = true ∧
    (calculate (push fresh [⟨0, 0⟩, ⟨1, 1⟩, ⟨2, 2⟩])).1.residual.isSome = true ∧
    (calculate (push fresh [⟨0, 0⟩, ⟨1, 1⟩, ⟨2, 2⟩])).1.pearsons_r.isSome = true ∧
    isCalculated (calculate (push fresh [⟨0, 0⟩, ⟨1, 1⟩, ⟨2, 2⟩])).1 = false := by
  obtain ⟨h1, h2, h3, h4, h5, h6⟩ := Inv_push Inv_fresh [(⟨0, 0⟩ : Point), ⟨1, 1⟩, ⟨2, 2⟩]
  have hpts := push_points fresh [(⟨0, 0⟩ : Point), ⟨1, 1⟩, ⟨2, 2⟩]
  set s0 : LinearRegression := push fresh [(⟨0, 0⟩ : Point), ⟨1, 1⟩, ⟨2, 2⟩] with hs0
  have hlen : s0.points.length = 3 := by
    rw [hs0, push_points_length]
    simp [fresh]
  have hbig : 2 < s0.points.length := by omega
  have hd : denomQ s0 ≠ 0 := by
    simp only [denomQ, nQ, h1, h4]
    rw [hpts]
    norm_num [fresh, sumX2pts, sumXpts, CalculatedPoint.ofPoint]
  have ha : aVal s0 = 0 := by
    simp only [aVal, denomQ, nQ, h1, h2, h3, h4]
    rw [hpts]
    norm_num [fresh, sumXpts, sumYpts, sumXYpts, sumX2pts, CalculatedPoint.ofPoint]
  have hb : bVal s0 = 1 := by
    simp only [bVal, denomQ, nQ, h1, h2, h3, h4]
    rw [hpts]
    norm_num [fresh, sumXpts, sumYpts, sumXYpts, sumX2pts, CalculatedPoint.ofPoint]
  have hmx : meanX s0 = 1 := by
    simp only [meanX, nQ, h1]
    rw [hpts]
    norm_num [fresh, sumXpts, CalculatedPoint.ofPoint]
  have hmy : meanY s0 = 1 := by
    simp only [meanY, nQ, h2]
    rw [hpts]
    norm_num [fresh, sumYpts, CalculatedPoint.ofPoint]
  have haccx : (accOf s0).2.2.1 = 2 := by
    rw [accOf_eq]
    show sumDx2 (meanX s0) s0.points = 2
    rw [hmx, hpts]
    norm_num [sumDx2, fresh, CalculatedPoint.ofPoint]
  have haccy : (accOf s0).2.2.2 = 2 := by
    rw [accOf_eq]
    show sumDy2 (meanY s0) s0.points = 2
    rw [hmy, hpts]
    norm_num [sumDy2, fresh, CalculatedPoint.ofPoint]
  have hp : prDenom s0 ≠ 0 := by
    have hq : prDenom s0 = ratSqrt ((2 : ℚ) * 2) := by
      rw [prDenom, haccx, haccy]
    rw [hq]
    intro h0
    rw [ratSqrt_eq_zero_iff] at h0
    norm_num at h0
  have hres0 : residVal s0 = 0 := by
    have hacc1 : (accOf s0).1 = 0 := by
      rw [accOf_eq]
      show sumResSq (aVal s0) (bVal s0) s0.points = 0
      have t0 : toNumber (0 : ℚ) = 0 := toNumber_zero
      have t1 : toNumber (1 : ℚ) = 1 := by
        have := toNumber_int 1 (by norm_num)
        exact_mod_cast this
      have t2 : toNumber (2 : ℚ) = 2 := by
        have := toNumber_int 2 (by norm_num)
        exact_mod_cast this
      rw [ha, hb, hpts]
      norm_num [sumResSq, fresh, CalculatedPoint.ofPoint, t0, t1, t2]
    rw [residVal, hacc1]
    simp only [nQ, hlen]
    norm_num [ratSqrt_zero, toNumber_zero]
  rw [calculate_of_big_ok hd hbig hp]
  refine ⟨rfl, ?_, ?_, ?_, ?_, ?_⟩
  · simp [calcFull, withABR, withAB]
  · simp [calcFull, withABR, withAB]
  · simp [calcFull, withABR, withAB]
  · simp [calcFull, withABR, withAB]
  · simp [isCalculated, calcFull, withABR, withAB, numTruthy, hres0]

/-- Claim C3 (amended): validity is per-accessor, not uniform.  (1)
`getValue` is guarded only by the presence of `a` and `b` (objects, hence
truthy whenever present): it reads the cached coefficients and never
recalculates in any state where both are set, even when `isCalculated()`
is false.  (2) `isCalculated()` is presence of all four fields AND both
cached native-number statistics being nonzero (JavaScript truthiness).
(3) When it is true, the statistics and band accessors read pure cached
state with the instance unchanged.  (4)+(5) When it is false — for
example with a cached residual of 0, as the counterexample exhibits — the
statistics accessors re-run `calculate()` on every call: they return the
recomputed instance with its freshly computed value, or propagate exactly
the error the recalculation throws. -/
theorem c3_amended (s : LinearRegression) (x k : ℚ) :
    (s.a.isSome = true → s.b.isSome = true →
      getValue s x = (s, Except.ok (toNumber (s.b.getD 0 * x + s.a.getD 0)))) ∧
    (isCalculated s = true ↔
      (s.a.isSome = true ∧ s.b.isSome = true ∧ s.residual.isSome = true ∧
        s.pearsons_r.isSome = true ∧ s.residual.getD 0 ≠ 0 ∧
        s.pearsons_r.getD 0 ≠ 0)) ∧
    (isCalculated s = true →
      getResidual s k = (s, Except.ok (toNumber (s.residual.getD 0 * k))) ∧
      getStandardDeviation s k =
        (s, Except.ok (toNumber (s.residual.getD 0 * k))) ∧
      getPearsonsR s = (s, Except.ok (s.pearsons_r.getD 0)) ∧
      getStandardDeviationValue s x k = (s, Except.ok (toNumber
        (toNumber (s.b.getD 0 * x + s.a.getD 0) +
          toNumber (s.residual.getD 0 * k)))) ∧
      getValues s x k = (s, Except.ok
        [toNumber (toNumber (s.b.getD 0 * x + s.a.getD 0) +
           toNumber (s.residual.getD 0 * toNumber (k * (-1)))),
         toNumber (s.b.getD 0 * x + s.a.getD 0),
         toNumber (toNumber (s.b.getD 0 * x + s.a.getD 0) +
           toNumber (s.residual.getD 0 * k))])) ∧
    (isCalculated s = false → (calculate s).2 = none →
      getResidual s k = ((calculate s).1,
        Except.ok (toNumber ((calculate s).1.residual.getD 0 * k))) ∧
      getPearsonsR s = ((calculate s).1,
        Except.ok ((calculate s).1.pearsons_r.getD 0))) ∧
    (isCalculated s = false → ∀ e, (calculate s).2 = some e →
      getResidual s k = ((calculate s).1, Except.error e) ∧
      getPearsonsR s = ((calculate s).1, Except.error e)) := by
  refine ⟨?_, ?_, ?_, ?_, ?_⟩
  · intro ha hb
    rw [getValue, if_pos (by simp [ha, hb])]
  · constructor
    · intro h
      obtain ⟨ha, hb, ⟨r, hr, hrne⟩, ⟨p, hp, hpne⟩⟩ := isCalculated_parts h
      exact ⟨ha, hb, by simp [hr], by simp [hp], by simpa [hr] using hrne,
        by simpa [hp] using hpne⟩
    · rintro ⟨ha, hb, hrs, hps, hrne, hpne⟩
      rcases hr : s.residual with _ | r
      · rw [hr] at hrs
        simp at hrs
      · rcases hp : s.pearsons_r with _ | p
        · rw [hp] at hps
          simp at hps
        · rw [hr] at hrne
          rw [hp] at hpne
          simp only [Option.getD_some] at hrne hpne
          simp [isCalculated, numTruthy, ha, hb, hr, hp, hrne, hpne]
  · intro h
    obtain ⟨ha, hb, _, _⟩ := isCalculated_parts h
    have hgsd : ∀ k0, getStandardDeviation s k0 = getResidual s k0 :=
      fun _ => rfl
    have hv : getValue s x =
        (s, Except.ok (toNumber (s.b.getD 0 * x + s.a.getD 0))) := by
      rw [getValue, if_pos (by simp [ha, hb])]
    have hr : ∀ k0, getResidual s k0 =
        (s, Except.ok (toNumber (s.residual.getD 0 * k0))) := by
      intro k0
      rw [getResidual, if_pos h]
    have hsdv : ∀ k0, getStandardDeviationValue s x k0 = (s, Except.ok (toNumber
        (toNumber (s.b.getD 0 * x + s.a.getD 0) +
          toNumber (s.residual.getD 0 * k0)))) := by
      intro k0
      rw [getStandardDeviationValue]
      simp only [hv, hgsd, hr]
    refine ⟨hr k, ?_, ?_, hsdv k, ?_⟩
    · rw [getStandardDeviation, hr k]
    · rw [getPearsonsR, if_pos h]
    · rw [getValues]
      simp only [hsdv, hv]
  · intro hic hsucc
    rcases hc : calculate s with ⟨s1, e⟩
    rw [hc] at hsucc
    simp at hsucc
    subst hsucc
    refine ⟨?_, ?_⟩
    · rw [getResidual, if_neg (by simp [hic]), hc]
    · rw [getPearsonsR, if_neg (by simp [hic]), hc]
  · intro hic e he
    rcases hc : calculate s with ⟨s1, e0⟩
    rw [hc] at he
    simp at he
    subst he
    refine ⟨?_, ?_⟩
    · rw [getResidual, if_neg (by simp [hic]), hc]
    · rw [getPearsonsR, if_neg (by simp [hic]), hc]

theorem c3_amended_witness :
    ((cachedState.a.isSome = true → cachedState.b.isSome = true →
      getValue cachedState 1 = (cachedState, Except.ok (toNumber
        (cachedState.b.getD 0 * 1 + cachedState.a.getD 0)))) ∧
    (isCalculated cachedState = true ↔
      (cachedState.a.isSome = true ∧ cachedState.b.isSome = true ∧
        cachedState.residual.isSome = true ∧
        cachedState.pearsons_r.isSome = true ∧
        cachedState.residual.getD 0 ≠ 0 ∧
        cachedState.pearsons_r.getD 0 ≠ 0)) ∧
    (isCalculated cachedState = true →
      getResidual cachedState 1 =
        (cachedState, Except.ok (toNumber (cachedState.residual.getD 0 * 1))) ∧
      getStandardDeviation cachedState 1 =
        (cachedState, Except.ok (toNumber (cachedState.residual.getD 0 * 1))) ∧
      getPearsonsR cachedState =
        (cachedState, Except.ok (cachedState.pearsons_r.getD 0)) ∧
      getStandardDeviationValue cachedState 1 1 = (cachedState,
        Except.ok (toNumber
          (toNumber (cachedState.b.getD 0 * 1 + cachedState.a.getD 0) +
            toNumber (cachedState.residual.getD 0 * 1)))) ∧
      getValues cachedState 1 1 = (cachedState, Except.ok
        [toNumber (toNumber (cachedState.b.getD 0 * 1 + cachedState.a.getD 0) +
           toNumber (cachedState.residual.getD 0 * toNumber ((1 : ℚ) * (-1)))),
         toNumber (cachedState.b.getD 0 * 1 + cachedState.a.getD 0),
         toNumber (toNumber (cachedState.b.getD 0 * 1 + cachedState.a.getD 0) +
           toNumber (cachedState.residual.getD 0 * 1))])) ∧
    (isCalculated cachedState = false → (calculate cachedState).2 = none →
      getResidual cachedState 1 = ((calculate cachedState).1,
        Except.ok (toNumber ((calculate cachedState).1.residual.getD 0 * 1))) ∧
      getPearsonsR cachedState = ((calculate cachedState).1,
        Except.ok ((calculate cachedState).1.pearsons_r.getD 0))) ∧
    (isCalculated cachedState = false →
      ∀ e, (calculate cachedState).2 = some e →
      getResidual cachedState 1 = ((calculate cachedState).1, Except.error e) ∧
      getPearsonsR cachedState = ((calculate cachedState).1, Except.error e))) :=
  c3_amended cachedState 1 1

/-- Composition rule for `getStandardDeviationValue` when both underlying
accessors succeed without changing the state. -/
theorem getSDV_eval (s : LinearRegression) (x k v r : ℚ)
    (hv : getValue s x = (s, Except.ok v))
    (hr : getResidual s k = (s, Except.ok r)) :
    getStandardDeviationValue s x k = (s, Except.ok (toNumber (v + r))) := by
  have hgsd : getStandardDeviation s k = getResidual s k := rfl
  rw [getStandardDeviationValue]
  simp only [hv, hgsd, hr]

/-- Composition rule for `getValues` when all three component calls succeed
without changing the state. -/
theorem getValues_eval (s : LinearRegression) (x k lo mid hi : ℚ)
    (h1 : getStandardDeviationValue s x (toNumber (k * (-1))) =
      (s, Except.ok lo))
    (h2 : getValue s x = (s, Except.ok mid))
    (h3 : getStandardDeviationValue s x k = (s, Except.ok hi)) :
    getValues s x k = (s, Except.ok [lo, mid, hi]) := by
  rw [getValues]
  simp only [h1, h2, h3]

/-- Concrete evaluation of `getValues` on the calculated instance built
from (0,0), (1,4), (2,2): fit y = x + 1, residual 2, bands at x = 3 with
one standard deviation are [2, 4, 6]. -/
theorem c9_eval :
    getValues (calculate (push fresh [⟨0, 0⟩, ⟨1, 4⟩, ⟨2, 2⟩])).1 3 1 =
      ((calculate (push fresh [⟨0, 0⟩, ⟨1, 4⟩, ⟨2, 2⟩])).1,
        Except.ok [2, 4, 6]) := by
  obtain ⟨h1, h2, h3, h4, h5, h6⟩ := Inv_push Inv_fresh [(⟨0, 0⟩ : Point), ⟨1, 4⟩, ⟨2, 2⟩]
  have hpts := push_points fresh [(⟨0, 0⟩ : Point), ⟨1, 4⟩, ⟨2, 2⟩]
  set s0 : LinearRegression := push fresh [(⟨0, 0⟩ : Point), ⟨1, 4⟩, ⟨2, 2⟩] with hs0
  have t1 : toNumber (1 : ℚ) = 1 := by
    have := toNumber_int 1 (by norm_num)
    exact_mod_cast this
  have t2 : toNumber (2 : ℚ) = 2 := by
    have := toNumber_int 2 (by norm_num)
    exact_mod_cast this
  have t3 : toNumber (3 : ℚ) = 3 := by
    have := toNumber_int 3 (by norm_num)
    exact_mod_cast this
  have t4 : toNumber (4 : ℚ) = 4 := by
    have := toNumber_int 4 (by norm_num)
    exact_mod_cast this
  have t6 : toNumber (6 : ℚ) = 6 := by
    have := toNumber_int 6 (by norm_num)
    exact_mod_cast this
  have tn2 : toNumber (-2 : ℚ) = -2 := by
    have := toNumber_int (-2) (by norm_num)
    exact_mod_cast this
  have hlen : s0.points.length = 3 := by
    rw [hs0, push_points_length]
    simp [fresh]
  have hbig : 2 < s0.points.length := by omega
  have hd : denomQ s0 ≠ 0 := by
    simp only [denomQ, nQ, h1, h4]
    rw [hpts]
    norm_num [fresh, sumX2pts, sumXpts, CalculatedPoint.ofPoint]
  have ha : aVal s0 = 1 := by
    simp only [aVal, denomQ, nQ, h1, h2, h3, h4]
    rw [hpts]
    norm_num [fresh, sumXpts, sumYpts, sumXYpts, sumX2pts, CalculatedPoint.ofPoint]
  have hb : bVal s0 = 1 := by
    simp only [bVal, denomQ, nQ, h1, h2, h3, h4]
    rw [hpts]
    norm_num [fresh, sumXpts, sumYpts, sumXYpts, sumX2pts, CalculatedPoint.ofPoint]
  have hmx : meanX s0 = 1 := by
    simp only [meanX, nQ, h1]
    rw [hpts]
    norm_num [fresh, sumXpts, CalculatedPoint.ofPoint]
  have hmy : meanY s0 = 2 := by
    simp only [meanY, nQ, h2]
    rw [hpts]
    norm_num [fresh, sumYpts, CalculatedPoint.ofPoint]
  have haccx : (accOf s0).2.2.1 = 2 := by
    rw [accOf_eq]
    show sumDx2 (meanX s0) s0.points = 2
    rw [hmx, hpts]
    norm_num [sumDx2, fresh, CalculatedPoint.ofPoint]
  have haccy : (accOf s0).2.2.2 = 8 := by
    rw [accOf_eq]
    show sumDy2 (meanY s0) s0.points = 8
    rw [hmy, hpts]
    norm_num [sumDy2, fresh, CalculatedPoint.ofPoint]
  have haccc : (accOf s0).2.1 = 2 := by
    rw [accOf_eq]
    show sumCross (meanX s0) (meanY s0) s0.points = 2
    rw [hmx, hmy, hpts]
    norm_num [sumCross, fresh, CalculatedPoint.ofPoint]
  have hq4 : prDenom s0 = 4 := by
    rw [prDenom, haccx, haccy]
    rw [show ((2 : ℚ) * 8) = ((4 : ℕ) : ℚ) ^ 2 by norm_num]
    rw [ratSqrt_natCast_sq]
    norm_num
  have hp : prDenom s0 ≠ 0 := by
    rw [hq4]
    norm_num
  have hres : residVal s0 = 2 := by
    have hacc1 : (accOf s0).1 = 6 := by
      rw [accOf_eq]
      show sumResSq (aVal s0) (bVal s0) s0.points = 6
      rw [ha, hb, hpts]
      norm_num [sumResSq, fresh, CalculatedPoint.ofPoint, t1, t2, t3]
    have h6q : ratSqrt 6 = 2 := by
      have hn : Nat.sqrt 6 = 2 := by
        have ha1 : 2 ≤ Nat.sqrt 6 := Nat.le_sqrt.mpr (by norm_num)
        have ha2 : Nat.sqrt 6 < 3 := by
          rw [Nat.sqrt_lt]
          norm_num
        omega
      unfold ratSqrt
      norm_num
      rw [show Int.toNat 6 = 6 from rfl, hn]
      norm_num
    rw [residVal, hacc1]
    simp only [nQ, hlen]
    norm_num [h6q, t2]
  have hprv : prVal s0 = 1 / 2 := by
    rw [prVal, haccc, hq4]
    rw [show ((2 : ℚ) / 4) = ((1 : ℤ) : ℚ) * 2 ^ (-1 : ℤ) by norm_num]
    rw [toNumber_rep 1 (-1) (by norm_num)]
    norm_num
  have hIC : isCalculated (calcFull s0) = true := by
    norm_num [isCalculated, calcFull, withABR, withAB, numTruthy, hres, hprv]
  have hvalS : getValue (calcFull s0) 3 = (calcFull s0, Except.ok 4) := by
    rw [getValue, if_pos (by simp [calcFull, withABR, withAB])]
    have hSb : (calcFull s0).b.getD 0 = 1 := by
      simp [calcFull, withABR, withAB, hb]
    have hSa : (calcFull s0).a.getD 0 = 1 := by
      simp [calcFull, withABR, withAB, ha]
    rw [hSb, hSa]
    norm_num [t4]
  have hresS : ∀ k0, getResidual (calcFull s0) k0 =
      (calcFull s0, Except.ok (toNumber (2 * k0))) := by
    intro k0
    rw [getResidual, if_pos hIC]
    have hSr : (calcFull s0).residual.getD 0 = 2 := by
      simp [calcFull, withABR, withAB, hres]
    rw [hSr]
  have hsdvN : getStandardDeviationValue (calcFull s0) 3 (-1) =
      (calcFull s0, Except.ok 2) := by
    rw [getSDV_eval (calcFull s0) 3 (-1) 4 (toNumber (2 * (-1))) hvalS
      (hresS (-1))]
    norm_num [tn2, t2]
  have hsdvP : getStandardDeviationValue (calcFull s0) 3 1 =
      (calcFull s0, Except.ok 6) := by
    rw [getSDV_eval (calcFull s0) 3 1 4 (toNumber (2 * 1)) hvalS (hresS 1)]
    norm_num [t2, t6]
  have targ : toNumber ((1 : ℚ) * (-1)) = -1 := by
    rw [show (1 : ℚ) * (-1) = ((-1 : ℤ) : ℚ) by norm_num]
    rw [toNumber_int (-1) (by norm_num)]
    norm_num
  have hN2 : getStandardDeviationValue (calcFull s0) 3
      (toNumber ((1 : ℚ) * (-1))) = (calcFull s0, Except.ok 2) := by
    rw [targ]
    exact hsdvN
  have hfst : (calculate s0).1 = calcFull s0 := by
    rw [calculate_of_big_ok hd hbig hp]
  rw [hfst]
  exact getValues_eval (calcFull s0) 3 1 2 4 6 hN2 hvalS hsdvP

/-- Claim C9: on any reachable instance, for a positive band width k, a
successful getValues(x, k) returns a three-element list [lower, middle,
upper] in nondecreasing order — the residual is nonnegative, so the lower
band subtracts a nonnegative amount from the middle value and the upper
band adds one, and float rounding is monotone. -/
theorem c9_band_ordering (s : LinearRegression) (x k : ℚ) (h : Reachable s)
    (hk : 0 < k) (s' : LinearRegression) (l : List ℚ)
    (hgv : getValues s x k = (s', Except.ok l)) :
    ∃ lo mid hi, l = [lo, mid, hi] ∧ lo ≤ mid ∧ mid ≤ hi := by
  obtain ⟨_, hg⟩ := reachable_inv h
  rcases h1 : getStandardDeviationValue s x (toNumber (k * (-1))) with ⟨s1, r1⟩
  rw [getValues, h1] at hgv
  cases r1 with
  | error e => simp at hgv
  | ok lo =>
    simp only at hgv
    rcases h2 : getValue s1 x with ⟨s2, r2⟩
    rw [h2] at hgv
    cases r2 with
    | error e => simp at hgv
    | ok mid =>
      simp only at hgv
      rcases h3 : getStandardDeviationValue s2 x k with ⟨s3, r3⟩
      rw [h3] at hgv
      cases r3 with
      | error e => simp at hgv
      | ok hi =>
        simp only at hgv
        have hl : l = [lo, mid, hi] := by
          have := congrArg Prod.snd hgv
          simp at this
          exact this.symm
        obtain ⟨hlo, hc1, hg1⟩ := getSDV_ok hg h1
        obtain ⟨hmid, hc2, hg2, _, _⟩ := getValue_ok hg1 h2
        obtain ⟨hhi, hc3, _⟩ := getSDV_ok hg2 h3
        have e1 := derived_congr hc1
        have e2 := derived_congr (sameCore_trans hc2 hc1)
        rw [e1.2.2.2.1, e1.2.2.1] at hmid
        rw [e2.2.2.2.1, e2.2.2.1, e2.2.2.2.2.2.1] at hhi
        have hrnn : 0 ≤ residVal s := by
          rw [residVal]
          exact toNumber_nonneg (ratSqrt_nonneg _)
        have hkneg : toNumber (k * (-1)) ≤ 0 := by
          rw [show k * (-1) = -k by ring, toNumber_neg]
          have := toNumber_nonneg hk.le
          linarith
        have htneg : toNumber (residVal s * toNumber (k * (-1))) ≤ 0 := by
          apply toNumber_nonpos
          have h0 : residVal s * toNumber (k * (-1)) ≤ residVal s * 0 :=
            mul_le_mul_of_nonneg_left hkneg hrnn
          simpa using h0
        have htpos : 0 ≤ toNumber (residVal s * k) :=
          toNumber_nonneg (mul_nonneg hrnn hk.le)
        refine ⟨lo, mid, hi, hl, ?_, ?_⟩
        · rw [hlo, hmid]
          calc toNumber (toNumber (bVal s * x + aVal s) +
                toNumber (residVal s * toNumber (k * (-1))))
              ≤ toNumber (toNumber (bVal s * x + aVal s) + 0) :=
                toNumber_mono (by linarith)
            _ = toNumber (toNumber (bVal s * x + aVal s)) := by rw [add_zero]
            _ = toNumber (bVal s * x + aVal s) := toNumber_idem _
        · rw [hmid, hhi]
          calc toNumber (bVal s * x + aVal s)
              = toNumber (toNumber (bVal s * x + aVal s)) :=
                (toNumber_idem _).symm
            _ = toNumber (toNumber (bVal s * x + aVal s) + 0) := by
                rw [add_zero]
            _ ≤ toNumber (toNumber (bVal s * x + aVal s) +
                toNumber (residVal s * k)) := toNumber_mono (by linarith)

theorem c9_band_ordering_witness :
    ∃ lo mid hi, ([(2 : ℚ), 4, 6] = [lo, mid, hi] ∧ lo ≤ mid ∧ mid ≤ hi) :=
  c9_band_ordering (calculate (push fresh [⟨0, 0⟩, ⟨1, 4⟩, ⟨2, 2⟩])).1 3 1
    (Reachable.calcStep _ (Reachable.push _ _ Reachable.fresh))
    (by norm_num) _ _ c9_eval

/-! ### Dyadic rationals and the float-feedback divergence -/

theorem isDyadic_int (m : ℤ) : IsDyadic (m : ℚ) := ⟨m, 0, by norm_num⟩

theorem isDyadic_zpow_mul (m e : ℤ) : IsDyadic ((m : ℚ) * 2 ^ e) := by
  rcases le_or_lt 0 e with he | he
  · refine ⟨m * 2 ^ e.toNat, 0, ?_⟩
    have h2 : (2 : ℚ) ^ e = (2 : ℚ) ^ (e.toNat : ℕ) := by
      rw [← zpow_natCast]
      congr 1
      omega
    rw [h2]
    push_cast
    ring
  · refine ⟨m, (-e).toNat, ?_⟩
    have h2 : (2 : ℚ) ^ e = ((2 : ℚ) ^ ((-e).toNat : ℕ))⁻¹ := by
      rw [← zpow_natCast, ← zpow_neg]
      congr 1
      omega
    rw [h2, ← div_eq_mul_inv]

theorem isDyadic_flPos (q : ℚ) : IsDyadic (flPos q) := by
  rw [flPos]
  split_ifs with h
  · exact ⟨0, 0, by norm_num⟩
  · exact isDyadic_zpow_mul _ _

theorem isDyadic_toNumber (q : ℚ) : IsDyadic (toNumber q) := by
  rw [toNumber]
  split_ifs with h
  · obtain ⟨m, n, hm⟩ := isDyadic_flPos (-q)
    exact ⟨-m, n, by rw [hm]; push_cast; ring⟩
  · exact isDyadic_flPos q

theorem isDyadic_add {p q : ℚ} (hp : IsDyadic p) (hq : IsDyadic q) :
    IsDyadic (p + q) := by
  obtain ⟨m1, n1, h1⟩ := hp
  obtain ⟨m2, n2, h2⟩ := hq
  refine ⟨m1 * 2 ^ n2 + m2 * 2 ^ n1, n1 + n2, ?_⟩
  have hn1 : ((2 : ℚ) ^ n1) ≠ 0 := by positivity
  have hn2 : ((2 : ℚ) ^ n2) ≠ 0 := by positivity
  rw [h1, h2, div_add_div _ _ hn1 hn2, pow_add]
  push_cast
  ring

theorem isDyadic_neg {p : ℚ} (hp : IsDyadic p) : IsDyadic (-p) := by
  obtain ⟨m, n, h⟩ := hp
  exact ⟨-m, n, by rw [h]; push_cast; ring⟩

theorem isDyadic_sub {p q : ℚ} (hp : IsDyadic p) (hq : IsDyadic q) :
    IsDyadic (p - q) := by
  rw [sub_eq_add_neg]
  exact isDyadic_add hp (isDyadic_neg hq)

theorem isDyadic_mul {p q : ℚ} (hp : IsDyadic p) (hq : IsDyadic q) :
    IsDyadic (p * q) := by
  obtain ⟨m1, n1, h1⟩ := hp
  obtain ⟨m2, n2, h2⟩ := hq
  refine ⟨m1 * m2, n1 + n2, ?_⟩
  rw [h1, h2, div_mul_div_comm, pow_add]
  push_cast
  ring

theorem isDyadic_sq {p : ℚ} (hp : IsDyadic p) : IsDyadic (p ^ 2) := by
  rw [sq]
  exact isDyadic_mul hp hp

theorem not_isDyadic_sixth : ¬ IsDyadic (1 / 6 : ℚ) := by
  rintro ⟨m, n, hm⟩
  have hq : (2 : ℚ) ^ n = 6 * (m : ℚ) := by
    field_simp at hm
    linarith
  have hz : (2 : ℤ) ^ n = 6 * m := by exact_mod_cast hq
  have h3 : (3 : ℤ) ∣ 2 ^ n := ⟨2 * m, by linarith⟩
  have h32 : (3 : ℤ) ∣ 2 := Int.prime_three.dvd_of_dvd_pow h3
  norm_num at h32

theorem sumResSq_dyadic (a b : ℚ) (l : List CalculatedPoint)
    (hy : ∀ p ∈ l, IsDyadic p.y) : IsDyadic (sumResSq a b l) := by
  induction l with
  | nil => exact ⟨0, 0, by norm_num [sumResSq]⟩
  | cons p t ih =>
      have hterm : IsDyadic ((p.y - toNumber (b * p.x + a)) ^ 2) :=
        isDyadic_sq (isDyadic_sub (hy p (by simp)) (isDyadic_toNumber _))
      have ht : IsDyadic (sumResSq a b t) :=
        ih (fun q hq => hy q (by simp [hq]))
      have hsplit : sumResSq a b (p :: t) =
          (p.y - toNumber (b * p.x + a)) ^ 2 + sumResSq a b t := by
        simp [sumResSq]
      rw [hsplit]
      exact isDyadic_add hterm ht

/-- Claim C8: the code breaks the spec's precision rule.  With the points
(0,1), (1,2), (2,4), the residual accumulator that `calculate()` actually
builds — whose fitted value passes through `getValue()` and hence through a
float conversion on every iteration — differs from the accumulator the spec
prescribes, in which the whole pass stays in the exact decimal domain: the
code's sum is a dyadic rational because each fed-back `y_hat` is a float,
while the exact sum is 1/6, which no dyadic rational equals. -/
theorem c8_float_feedback :
    (accOf (push fresh [⟨0, 1⟩, ⟨1, 2⟩, ⟨2, 4⟩])).1 ≠
      ((push fresh [⟨0, 1⟩, ⟨1, 2⟩, ⟨2, 4⟩]).points.foldl
        (residAccumSpec (aVal (push fresh [⟨0, 1⟩, ⟨1, 2⟩, ⟨2, 4⟩]))
          (bVal (push fresh [⟨0, 1⟩, ⟨1, 2⟩, ⟨2, 4⟩]))
          (meanX (push fresh [⟨0, 1⟩, ⟨1, 2⟩, ⟨2, 4⟩]))
          (meanY (push fresh [⟨0, 1⟩, ⟨1, 2⟩, ⟨2, 4⟩]))) (0, 0, 0, 0)).1 := by
  obtain ⟨h1, h2, h3, h4, h5, h6⟩ := Inv_push Inv_fresh [(⟨0, 1⟩ : Point), ⟨1, 2⟩, ⟨2, 4⟩]
  have hpts := push_points fresh [(⟨0, 1⟩ : Point), ⟨1, 2⟩, ⟨2, 4⟩]
  set s0 : LinearRegression := push fresh [(⟨0, 1⟩ : Point), ⟨1, 2⟩, ⟨2, 4⟩] with hs0
  have ha : aVal s0 = 5 / 6 := by
    simp only [aVal, denomQ, nQ, h1, h2, h3, h4]
    rw [hpts]
    norm_num [fresh, sumXpts, sumYpts, sumXYpts, sumX2pts, CalculatedPoint.ofPoint]
  have hb : bVal s0 = 3 / 2 := by
    simp only [bVal, denomQ, nQ, h1, h2, h3, h4]
    rw [hpts]
    norm_num [fresh, sumXpts, sumYpts, sumXYpts, sumX2pts, CalculatedPoint.ofPoint]
  have hR : (s0.points.foldl
      (residAccumSpec (aVal s0) (bVal s0) (meanX s0) (meanY s0))
      (0, 0, 0, 0)).1 = 1 / 6 := by
    rw [residAccumSpec_foldl]
    show (0 : ℚ) + sumResSqSpec (aVal s0) (bVal s0) s0.points = 1 / 6
    rw [ha, hb, hpts]
    norm_num [sumResSqSpec, fresh, CalculatedPoint.ofPoint]
  have hL : IsDyadic (accOf s0).1 := by
    rw [accOf_eq]
    show IsDyadic (sumResSq (aVal s0) (bVal s0) s0.points)
    apply sumResSq_dyadic
    intro p hp
    rw [hpts] at hp
    simp [fresh, CalculatedPoint.ofPoint] at hp
    rcases hp with h | h | h <;> rw [h]
    · simpa using isDyadic_int 1
    · simpa using isDyadic_int 2
    · simpa using isDyadic_int 4
  rw [hR]
  intro heq
  rw [heq] at hL
  exact not_isDyadic_sixth hL

end LinReg
